import Mathlib

/-!
Shallow embedding of the VCF reader/writer of awilkey/bio-format-tools-go
(package vcf: reader.go, feature.go, writer.go), together with proofs about
its header parsing, record parsing, genotype decoding and serialization.

Go byte strings are modelled as `List Char`; Go maps as association lists
built by an overwriting insert (so keys stay distinct); Go `error` values as
an explicit sum; a Go panic (index out of range) as a distinguished outcome.
Go float64 is modelled by ℚ (no Inf/NaN/hex forms; these never arise in the
claims below) and uint64/int arithmetic by ℕ/ℤ with explicit clamping where
the Go standard library clamps.
-/

/-- A Go byte string / `[]byte`, modelled as a list of characters. -/
abbrev Str := List Char

/-- Go `bytes.Split(s, sep)` for a single-character separator.
Always returns at least one piece; splitting the empty string yields `[[]]`. -/
def splitChar (sep : Char) : Str → List Str
  | [] => [[]]
  | c :: cs =>
    match splitChar sep cs with
    | [] => [[c]]
    | s :: ss => if c = sep then [] :: s :: ss else (c :: s) :: ss

/-- Go `bytes.SplitN(s, sep, 2)` for a single-character separator, keeping
only the split position: `none` when the separator does not occur. -/
def splitN2 (sep : Char) : Str → Option (Str × Str)
  | [] => none
  | c :: cs =>
    if c = sep then some ([], cs)
    else (splitN2 sep cs).map (fun p => (c :: p.1, p.2))

/-- Whitespace class used by Go `bytes.TrimSpace` (ASCII part of
`unicode.IsSpace`).  The sources only ever see ASCII whitespace. -/
def isGoSpace (c : Char) : Bool :=
  c = ' ' || c = '\t' || c = '\n' || c = '\r' || c = Char.ofNat 11 || c = Char.ofNat 12

/-- Go `bytes.TrimLeft(s, cutset)` for a single-character cutset. -/
def trimLeftChar (cut : Char) (s : Str) : Str :=
  s.dropWhile (fun c => c = cut)

/-- Go `bytes.TrimSpace`. -/
def trimSpace (s : Str) : Str :=
  ((s.dropWhile isGoSpace).reverse.dropWhile isGoSpace).reverse

/-- Go `bytes.Trim(s, cutset)`: strip every leading and trailing character
belonging to `cutset` (used with cutset `"<>"`). -/
def trimSet (cut : List Char) (s : Str) : Str :=
  ((s.dropWhile (fun c => c ∈ cut)).reverse.dropWhile (fun c => c ∈ cut)).reverse

/-- Go `strings.TrimRight(s, cutset)` for a single-character cutset. -/
def trimRightChar (cut : Char) (s : Str) : Str :=
  (s.reverse.dropWhile (fun c => c = cut)).reverse

/-- Lookup in an association list modelling a Go map read (`m[k]`),
returning `none` when the key is absent. -/
def aget {β : Type} (m : List (Str × β)) (k : Str) : Option β :=
  (m.find? (fun p => p.1 = k)).map (fun p => p.2)

/-- Go map read with the zero value for a missing key (`m[k]` on a string
map yields `""`). -/
def agetD (m : List (Str × Str)) (k : Str) : Str :=
  (aget m k).getD []

/-- Go map write `m[k] = v`: overwrite in place when the key exists,
append otherwise.  Keeps keys distinct when starting from a list with
distinct keys. -/
def mapInsert {β : Type} (m : List (Str × β)) (k : Str) (v : β) : List (Str × β) :=
  if m.any (fun p => p.1 = k) then
    m.map (fun p => if p.1 = k then (k, v) else p)
  else
    m ++ [(k, v)]

/-- Extensional equality of two Go maps (what `reflect.DeepEqual` checks on
maps), as a boolean. -/
def mapEqb (a b : List (Str × Str)) : Bool :=
  a.all (fun p => aget b p.1 = some p.2) && b.all (fun p => aget a p.1 = some p.2)

/-- Numeric value of a digit string. -/
def digitsToNat (s : Str) : Nat :=
  s.foldl (fun a c => 10 * a + (c.toNat - 48)) 0

/-- Go `strconv.ParseUint(s, 10, 64)` with the error discarded, as in
`feat.Pos, _ = strconv.ParseUint(...)`: syntax errors yield 0; overflow
yields `MaxUint64` (Go returns the clamped value alongside the error). -/
def goParseUint64 (s : Str) : Nat :=
  if s ≠ [] ∧ s.all Char.isDigit then min (digitsToNat s) (2 ^ 64 - 1) else 0

/-- Go `strconv.Atoi(s)` with the error discarded, as in
`val, _ := strconv.Atoi(...)`: optional sign, at least one digit; syntax
errors yield 0; overflow yields the clamped int64 bound. -/
def goAtoi (s : Str) : Int :=
  let signed : Int × Str :=
    match s with
    | '+' :: r => (1, r)
    | '-' :: r => (-1, r)
    | r => (1, r)
  if signed.2 ≠ [] ∧ signed.2.all Char.isDigit then
    max (-(2 ^ 63)) (min (signed.1 * (digitsToNat signed.2 : Int)) (2 ^ 63 - 1))
  else 0

/-- Go `strconv.ParseFloat(s, 64)` success/value, modelled over ℚ:
optional sign, decimal mantissa with at least one digit, optional
`e`/`E` exponent.  (Inf/NaN/hex-float/underscore forms are not modelled;
IEEE rounding is ignored — no claim below depends on either.) -/
def goParseFloat (s : Str) : Option ℚ :=
  let signed : ℚ × Str :=
    match s with
    | '+' :: r => (1, r)
    | '-' :: r => (-1, r)
    | r => (1, r)
  let ip := signed.2.takeWhile Char.isDigit
  let r1 := signed.2.dropWhile Char.isDigit
  let fpr : Str × Str :=
    match r1 with
    | '.' :: r2 => (r2.takeWhile Char.isDigit, r2.dropWhile Char.isDigit)
    | _ => ([], r1)
  let fp := fpr.1
  let r2 := fpr.2
  if ip = [] ∧ fp = [] then none
  else
    let mant : ℚ := (digitsToNat ip : ℚ) + (digitsToNat fp : ℚ) / (10 : ℚ) ^ fp.length
    match r2 with
    | [] => some (signed.1 * mant)
    | c :: r3 =>
      if c = 'e' ∨ c = 'E' then
        let esigned : Int × Str :=
          match r3 with
          | '+' :: r4 => (1, r4)
          | '-' :: r4 => (-1, r4)
          | r4 => (1, r4)
        if esigned.2 ≠ [] ∧ esigned.2.all Char.isDigit then
          some (signed.1 * mant * (10 : ℚ) ^ (esigned.1 * (digitsToNat esigned.2 : Int)))
        else none
      else none

/-- A Go `error` value as returned by the reader: either `io.EOF` or a
message created by `errors.New`. -/
inductive GoErr : Type
  | eof : GoErr
  | msg : String → GoErr
deriving DecidableEq, Repr

/-- Outcome of a Go call that may return a value, return an error, or
panic (index out of range). -/
inductive GoExc (α : Type) : Type
  | ok : α → GoExc α
  | err : String → GoExc α
  | panic : GoExc α
deriving DecidableEq, Repr

/-- `Genotype` from feature.go: a single decoded genotype variant in a
Feature. -/
structure Genotype : Type where
  Id : Str
  GT : List Int
  PhasedGT : Bool
  Fields : List (Str × Str)
deriving DecidableEq, Repr, Inhabited

/-- `Meta` from feature.go: a structured meta-information directive.
(The Go field `Type` is spelled `Typ` here because `Type` is reserved.) -/
structure Meta : Type where
  FieldType : Str := []
  Id : Str := []
  Number : Str := []
  Typ : Str := []
  Description : Str := []
  Url : Str := []
  Optional : List (Str × Str) := []
  FieldOrder : List Str := []
deriving DecidableEq, Repr

/-- `SingleValMeta` from feature.go: a `##key=value` directive, keeping
only the two fields the reader ever sets. -/
structure SingleValMeta : Type where
  FieldType : Str
  Id : Str
deriving DecidableEq, Repr

/-- `Header` from feature.go. -/
structure Header : Type where
  Metas : List Meta := []
  Infos : List Meta := []
  Filters : List Meta := []
  Formats : List Meta := []
  Alts : List Meta := []
  Assemblies : List Meta := []
  Contigs : List Meta := []
  Samples : List Meta := []
  Pedigrees : List Meta := []
  Others : List Meta := []
  SingleVals : List SingleValMeta := []
  PrintOrder : List Meta := []
  FileFormat : Str := []
  Genotypes : List (Str × Nat) := []
deriving DecidableEq, Repr

/-- `Feature` from feature.go: one VCF data line. -/
structure Feature : Type where
  Chrom : Str := []
  Pos : Nat := 0
  Id : Str := []
  Ref : Str := []
  Alt : List Str := []
  Qual : ℚ := 0
  QualFormat : Char := Char.ofNat 0
  Filter : Str := []
  Info : List (Str × Str) := []
  InfoOrder : List (Str × Nat) := []
  Format : List (Str × Nat) := []
  Genotypes : List Str := []
  ParsedGenotypes : List (Str × Genotype) := []
deriving DecidableEq, Repr

/-- `NewHeader()` from feature.go: all collections empty, `Genotypes` an
empty map. -/
def NewHeader : Header := {}

/-- Body of the `Info` loop of `parseFeature` (reader.go): split field 8 on
`;`, then each piece on `=`; a piece with no `=` stores its key as its own
value; `InfoOrder` records the piece's index. -/
def buildInfo (field7 : Str) : List (Str × Str) × List (Str × Nat) :=
  let infos := splitChar ';' field7
  infos.enum.foldl
    (fun acc p =>
      let curInf := splitChar '=' p.2
      let k := curInf.getD 0 []
      let info' :=
        if curInf.length = 1 then mapInsert acc.1 k k
        else mapInsert acc.1 k (curInf.getD 1 [])
      (info', mapInsert acc.2 k p.1))
    ([], [])

/-- `parseFeature` of reader.go, from the already-read line (the read/EOF
plumbing is handled by the caller `Read`).  A line is rejected exactly when
`flen < 8 || flen == 9 || (flen >= 10 && flen != len(Genotypes)+1+8)`. -/
def parseFeature (h : Header) (line : Str) : Except GoErr Feature :=
  let fields := splitChar '\t' line
  let flen := fields.length
  if flen < 8 ∨ flen = 9 ∨ (10 ≤ flen ∧ flen ≠ h.Genotypes.length + 1 + 8) then
    Except.error (GoErr.msg "too few columns in feature line")
  else
    let fieldsT := fields.map trimSpace
    let f5 := fieldsT.getD 5 []
    let info := buildInfo (fieldsT.getD 7 [])
    let base : Feature :=
      { Chrom := fieldsT.getD 0 []
        Pos := goParseUint64 (fieldsT.getD 1 [])
        Id := fieldsT.getD 2 []
        Ref := fieldsT.getD 3 []
        Alt := splitChar ',' (fieldsT.getD 4 [])
        Qual := (goParseFloat f5).getD 0
        QualFormat := if f5.any (fun c => c = 'e' ∨ c = 'E') then 'e' else 'f'
        Filter := fieldsT.getD 6 []
        Info := info.1
        InfoOrder := info.2 }
    if 8 < flen then
      let fmts := splitChar ':' (fieldsT.getD 8 [])
      Except.ok
        { base with
          Format := fmts.enum.foldl (fun m p => mapInsert m p.2 p.1) []
          Genotypes := fieldsT.drop 9 }
    else
      Except.ok base

/-- The `GT` sub-field rule inside `SingleGenotype` (feature.go): split on
`|`; more than one piece means phased; exactly one piece means re-split on
`/`; token `.` maps to `-1`, any other token goes through `strconv.Atoi`
with its error discarded. -/
def decodeGT (v : Str) : Bool × List Int :=
  let gt := splitChar '|' v
  let pieces := if gt.length = 1 then splitChar '/' v else gt
  (1 < gt.length,
   pieces.map (fun tok => if tok = ['.'] then (-1 : Int) else goAtoi tok))

/-- The decode loop of `SingleGenotype` over the entries of `f.Format`:
store each sub-field's raw string under its key, and decode `GT` when the
key is exactly `GT`.  `none` models the Go panic when a stored position is
out of range of the colon-split pieces. -/
def decodeFields (info : List Str) :
    List (Str × Nat) → (List (Str × Str) × List Int × Bool) →
    Option (List (Str × Str) × List Int × Bool)
  | [], st => some st
  | (key, value) :: rest, st =>
    match info[value]? with
    | none => none
    | some v =>
      let fields' := mapInsert st.1 key v
      let st' :=
        if key = [ 'G', 'T' ] then
          let d := decodeGT v
          (fields', d.2, d.1)
        else (fields', st.2.1, st.2.2)
      decodeFields info rest st'

/-- `SingleGenotype` from feature.go: returns the decode outcome together
with the (possibly updated) Feature, modelling the mutation of
`f.ParsedGenotypes` through the pointer receiver. -/
def SingleGenotype (f : Feature) (gen : Str) (order : List (Str × Nat)) :
    GoExc Genotype × Feature :=
  match aget order gen with
  | none => (GoExc.err "genotype not in vcf", f)
  | some loc =>
    match aget f.ParsedGenotypes gen with
    | some preParsed => (GoExc.ok preParsed, f)
    | none =>
      match f.Genotypes[loc]? with
      | none => (GoExc.panic, f)
      | some raw =>
        let info := splitChar ':' raw
        if info.length ≠ f.Format.length then
          (GoExc.err "genotype has improperly formatted data", f)
        else
          match decodeFields info f.Format ([], [], false) with
          | none => (GoExc.panic, f)
          | some st =>
            let parsedGT : Genotype :=
              { Id := gen, GT := st.2.1, PhasedGT := st.2.2, Fields := st.1 }
            (GoExc.ok parsedGT,
             { f with ParsedGenotypes := mapInsert f.ParsedGenotypes gen parsedGT })

/-- A sequence of `SingleGenotype` calls against one Feature, threading the
mutated Feature through and collecting the names of the calls that returned
a Genotype (the batch helpers `MultipleGenotypes`/`AllGenotypes` of
feature.go are exactly such sequences). -/
def runCalls (order : List (Str × Nat)) : Feature → List Str → Feature × List Str
  | f, [] => (f, [])
  | f, gen :: gens =>
    match SingleGenotype f gen order with
    | (GoExc.ok _, f') =>
      let r := runCalls order f' gens
      (r.1, gen :: r.2)
    | (_, f') => runCalls order f' gens

/-- The key `"FieldType"`. -/
def kFieldType : Str := "FieldType".toList

/-- The key `"ID"`. -/
def kID : Str := "ID".toList

/-- The key `"Number"`. -/
def kNumber : Str := "Number".toList

/-- The key `"Type"`. -/
def kType : Str := "Type".toList

/-- The key `"Description"`. -/
def kDescription : Str := "Description".toList

/-- The key `"URL"`. -/
def kURL : Str := "URL".toList

/-- The literal `"fileformat"`. -/
def kfileformat : Str := "fileformat".toList

/-- The literal `"FORMAT"`. -/
def kFORMAT : Str := "FORMAT".toList

/-- One step of the sub-field loop of `parseLineToMeta`: split the piece
on `=`, skip it if no `=` is present, otherwise record key and value and
append the key to the ordered key list. -/
def parseMetaField (acc : List (Str × Str) × List Str) (field : Str) :
    List (Str × Str) × List Str :=
  let info := splitChar '=' field
  if info.length = 1 then acc
  else (mapInsert acc.1 (info.getD 0 []) (info.getD 1 []),
        acc.2 ++ [info.getD 0 []])

/-- `parseLineToMeta` of reader.go.  Returns the collected key→value map,
the ordered key list, and the structured flag; `none` models the
`invalid meta header` error (no `=` present). -/
def parseLineToMeta (meta : Str) : Option (List (Str × Str) × List Str × Bool) :=
  let m := trimLeftChar '#' (trimSpace meta)
  match splitN2 '=' m with
  | none => none
  | some (l0, l1) =>
    if ¬ ([ '<' ].isPrefixOf l1) then
      some (mapInsert (mapInsert [] kFieldType l0) kID l1, [kFieldType, kID], false)
    else
      let fields := splitChar ',' (trimSet [ '<', '>' ] (trimSpace l1))
      let out := fields.foldl parseMetaField
        (mapInsert [] kFieldType (trimLeftChar '#' l0), [kFieldType])
      some (out.1, out.2, true)

/-- One switch step of the `load meta struct` loop of NewReader
(reader.go): assign a recognized key to its typed `Meta` field, an
unrecognized one to `Optional`. -/
def assignMetaField (mv : List (Str × Str)) (m : Meta) (field : Str) : Meta :=
  if field = kFieldType then { m with FieldType := agetD mv field }
  else if field = kID then { m with Id := agetD mv field }
  else if field = kNumber then { m with Number := agetD mv field }
  else if field = kType then { m with Typ := agetD mv field }
  else if field = kDescription then { m with Description := agetD mv field }
  else if field = kURL then { m with Url := agetD mv field }
  else { m with Optional := mapInsert m.Optional field (agetD mv field) }

/-- The `load meta struct` loop of NewReader (reader.go): distribute the
ordered keys over the typed fields of `Meta` with everything unrecognized
going to `Optional`; `FieldOrder` is the ordered key list minus its leading
`FieldType`. -/
def buildMeta (mv : List (Str × Str)) (mo : List Str) : Meta :=
  mo.foldl (assignMetaField mv) { FieldOrder := mo.drop 1 }

/-- The category-routing switch of NewReader plus the `PrintOrder` append. -/
def routeMeta (h : Header) (mv : List (Str × Str)) (m : Meta) : Header :=
  let ft := agetD mv kFieldType
  let h' :=
    if ft = "META".toList then { h with Metas := h.Metas ++ [m] }
    else if ft = "INFO".toList then { h with Infos := h.Infos ++ [m] }
    else if ft = "FILTER".toList then { h with Filters := h.Filters ++ [m] }
    else if ft = "FORMAT".toList then { h with Formats := h.Formats ++ [m] }
    else if ft = "ALT".toList then { h with Alts := h.Alts ++ [m] }
    else if ft = "SAMPLE".toList then { h with Samples := h.Samples ++ [m] }
    else if ft = "assembly".toList then { h with Assemblies := h.Assemblies ++ [m] }
    else if ft = "contig".toList then { h with Contigs := h.Contigs ++ [m] }
    else if ft = "pedigree".toList then { h with Pedigrees := h.Pedigrees ++ [m] }
    else { h with Others := h.Others ++ [m] }
  { h' with PrintOrder := h'.PrintOrder ++ [m] }

/-- Result of processing one line inside NewReader's header loop:
either break out of the loop (`brk`, carrying the new header, the
`foundHeader` flag, and `some e` when the branch overwrote `readErr`), or
continue with the next line (`cont`). -/
inductive StepRes : Type
  | brk : Header → Bool → Option GoErr → StepRes
  | cont : Header → StepRes
deriving DecidableEq, Repr

/-- The sample-name loop of the column-header branch:
`h.Genotypes[string(genotype)] = uint64(i)` over `header[9:]`. -/
def buildGenotypes (names : List Str) : List (Str × Nat) :=
  names.enum.foldl (fun m p => mapInsert m p.2 p.1) []

/-- One iteration of NewReader's header loop (reader.go), for the line
numbered `n`.  The inner `LineNumber == 1` test of the `##` branch is dead
in the source (that branch is only reached when `LineNumber != 1`) and is
not reproduced. -/
def readerStep (h : Header) (n : Nat) (line : Str) : StepRes :=
  if n = 1 then
    match parseLineToMeta line with
    | none => StepRes.brk h false (some (GoErr.msg "fileformat is not vcf"))
    | some (mv, _, _) =>
      if agetD mv kFieldType ≠ kfileformat then
        StepRes.brk h false (some (GoErr.msg "fileformat is not vcf"))
      else
        StepRes.cont { h with FileFormat := agetD mv kID }
  else if [ '#', '#' ].isPrefixOf line then
    match parseLineToMeta line with
    | none => StepRes.brk h false (some (GoErr.msg "invalid meta header"))
    | some (mv, mo, formatted) =>
      if formatted = false then
        StepRes.cont
          { h with SingleVals := h.SingleVals ++
              [{ FieldType := agetD mv kFieldType, Id := agetD mv kID }] }
      else
        StepRes.cont (routeMeta h mv (buildMeta mv mo))
  else if [ '#' ].isPrefixOf line then
    let header := splitChar '\t' line
    if header.length < 8 then
      StepRes.brk h true (some (GoErr.msg "header has too few columns to be minimum vcf"))
    else if header.length = 9 then
      if header.getD 8 [] ≠ kFORMAT then
        StepRes.brk h true (some (GoErr.msg "header needs a FORMAT column before adding genotypes"))
      else
        StepRes.brk h true (some (GoErr.msg "header FORMAT column must be followed by at least one genotype"))
    else if 10 ≤ header.length then
      StepRes.brk { h with Genotypes := buildGenotypes (header.drop 9) } true none
    else
      StepRes.brk h true none
  else
    StepRes.brk h false none

/-- Helper for `toLines`: accumulate the current line (in reverse) until a
newline or end of input. -/
def toLinesAux (cur : Str) : Str → List (Str × Bool)
  | [] => [(cur.reverse, true)]
  | c :: cs =>
    if c = '\n' then (cur.reverse ++ [ '\n' ], false) :: toLinesAux [] cs
    else toLinesAux (c :: cur) cs

/-- The stream as the sequence of lines `bufio.Reader.ReadBytes('\n')`
delivers: each line keeps its trailing newline, and the flag records
whether that read returned `io.EOF` (no delimiter before end of input). -/
def toLines (s : Str) : List (Str × Bool) :=
  toLinesAux [] s

/-- The `read header/meta` loop of NewReader over the delivered lines.
Output: final header, `foundHeader`, the last `line` read, the final
`readErr` (`none` when the loop broke with no error), and `LineNumber`.
An exhausted list behaves like `ReadBytes` at end of input: it delivers
the empty line together with `io.EOF`. -/
def newReaderLoop (h : Header) (lineNo : Nat) :
    List (Str × Bool) → Header × Bool × Str × Option GoErr × Nat
  | [] =>
    match readerStep h (lineNo + 1) [] with
    | StepRes.brk h' found e => (h', found, [], e.getD GoErr.eof |> some, lineNo + 1)
    | StepRes.cont h' => (h', false, [], some GoErr.eof, lineNo + 1)
  | (line, eof) :: rest =>
    match readerStep h (lineNo + 1) line with
    | StepRes.brk h' found e =>
      (h', found, line, (match e with | some err => some err | none => if eof then some GoErr.eof else none), lineNo + 1)
    | StepRes.cont h' =>
      if eof then (h', false, line, some GoErr.eof, lineNo + 1)
      else newReaderLoop h' (lineNo + 1) rest

/-- `NewReader` of reader.go over a whole input stream: run the header
loop, then apply the `no header line present` overwrite and the final
error filter.  The successful result keeps the header and `LineNumber`. -/
def NewReader (stream : Str) : Except GoErr (Header × Nat) :=
  let out := newReaderLoop NewHeader 0 (toLines stream)
  let h := out.1
  let found := out.2.1
  let line := out.2.2.1
  let readErr0 := out.2.2.2.1
  let n := out.2.2.2.2
  let readErr := if found then readErr0 else some (GoErr.msg "no header line present")
  match readErr with
  | none => Except.ok (h, n)
  | some e =>
    if line = [] ∧ e = GoErr.eof then Except.error GoErr.eof
    else if line ≠ [] ∧ e ≠ GoErr.eof then Except.error e
    else Except.ok (h, n)

/-- Decidable equality for `Except` results, so concrete runs of the
reader can be checked by `decide`. -/
instance instDecEqExcept {ε α : Type} [DecidableEq ε] [DecidableEq α] :
    DecidableEq (Except ε α) := fun a b =>
  match a, b with
  | Except.ok x, Except.ok y =>
    if h : x = y then Decidable.isTrue (by rw [h])
    else Decidable.isFalse (fun hc => by injection hc with h2; exact h h2)
  | Except.error x, Except.error y =>
    if h : x = y then Decidable.isTrue (by rw [h])
    else Decidable.isFalse (fun hc => by injection hc with h2; exact h h2)
  | Except.ok _, Except.error _ => Decidable.isFalse (fun hc => Except.noConfusion hc)
  | Except.error _, Except.ok _ => Decidable.isFalse (fun hc => Except.noConfusion hc)

/-- `optionalToString` of feature.go: for each key of `FieldOrder` present
in `Optional`, emit `key=value,`. -/
def optionalToString (fo : List Str) (opt : List (Str × Str)) : Str :=
  fo.foldl
    (fun b o =>
      match aget opt o with
      | some val => b ++ o ++ '=' :: val ++ [ ',' ]
      | none => b)
    []

/-- One switch step of `Meta.String` (feature.go): emit `key=value,` for a
recognized key with a non-empty typed value, skip everything else. -/
def emitTyped (m : Meta) (b : Str) (field : Str) : Str :=
  if field = kID then
    (if m.Id ≠ [] then b ++ field ++ '=' :: m.Id ++ [ ',' ] else b)
  else if field = kNumber then
    (if m.Number ≠ [] then b ++ field ++ '=' :: m.Number ++ [ ',' ] else b)
  else if field = kType then
    (if m.Typ ≠ [] then b ++ field ++ '=' :: m.Typ ++ [ ',' ] else b)
  else if field = kDescription then
    (if m.Description ≠ [] then b ++ field ++ '=' :: m.Description ++ [ ',' ] else b)
  else if field = kURL then
    (if m.Url ≠ [] then b ++ kURL ++ '=' :: m.Url ++ [ ',' ] else b)
  else b

/-- `Meta.String` of feature.go.  When `FieldOrder` is empty the source
appends the canonical recognized keys and then the *values* of `Optional`
(`for _, field := range m.Optional` ranges over map values); map iteration
order is modelled as the association-list order.  Recognized keys with an
empty value are skipped; unrecognized keys are skipped by the switch and
only re-emitted through `optionalToString`; the trailing comma is trimmed
and the directive closed with `>`. -/
def metaString (m : Meta) : Str :=
  let fo :=
    if m.FieldOrder = [] then
      [kID, kNumber, kType, kDescription, kURL] ++ m.Optional.map Prod.snd
    else m.FieldOrder
  let body := fo.foldl (emitTyped m) []
  let body2 := if m.Optional ≠ [] then body ++ optionalToString fo m.Optional else body
  [ '#', '#' ] ++ m.FieldType ++ '=' :: '<' :: trimRightChar ',' body2 ++ [ '>' ]

/-- Reading one serialized structured directive back through the reader:
`parseLineToMeta` followed by the `load meta struct` assembly, `none` when
the line fails to parse or is not structured. -/
def reparseMeta (s : Str) : Option Meta :=
  match parseLineToMeta s with
  | some (mv, mo, true) => some (buildMeta mv mo)
  | _ => none

/-- Equality of two `Meta` values as Go's `reflect.DeepEqual` sees them:
field-wise, with the `Optional` maps compared extensionally. -/
def MetaEqb (a b : Meta) : Bool :=
  decide (a.FieldType = b.FieldType) && decide (a.Id = b.Id) &&
  decide (a.Number = b.Number) && decide (a.Typ = b.Typ) &&
  decide (a.Description = b.Description) && decide (a.Url = b.Url) &&
  decide (a.FieldOrder = b.FieldOrder) && mapEqb a.Optional b.Optional

/-- Modelled from the spec: the constant `MissingQualField` is referenced
by writer.go (`if f.Qual == MissingQualField`) but the file defining it is
not among the sources.  The spec describes it as "a reserved float constant
meaning not provided", distinct from the zero value; we use the value of
`math.MaxFloat64`, the convention the sibling gff package uses for its own
missing-value sentinel. -/
def MissingQualField : ℚ := 2 ^ 1024 - 2 ^ 971

/-- The QUAL-column preparation of `WriteFeature` (writer.go): the sentinel
renders as the missing marker `.`, anything else goes through
`strconv.FormatFloat(f.Qual, f.QualFormat, -1, 64)`, abstracted here by the
argument `fmtFloat`. -/
def writeQual (fmtFloat : ℚ → Char → Str) (f : Feature) : Str :=
  if f.Qual = MissingQualField then [ '.' ] else fmtFloat f.Qual f.QualFormat

/-- The indexed-placement loop shared by `WriteHeader`
(`gt := make([]string, len(h.Genotypes)); for key, val := range h.Genotypes
{ gt[val] = key }`) and `WriteFeature` (same shape over `f.Format`):
fill a fresh slice of length `len(map)` by writing each key at its stored
index.  `none` models the Go panic when an index is out of range. -/
def placeByIndex (entries : List (Str × Nat)) : Option (List Str) :=
  entries.foldl
    (fun acc p =>
      acc.bind (fun slots =>
        if p.2 < slots.length then some (slots.set p.2 p.1) else none))
    (some (List.replicate entries.length []))

/-- The sample-name columns `WriteHeader` emits after `FORMAT`. -/
def writeHeaderSamples (h : Header) : Option (List Str) :=
  placeByIndex h.Genotypes

/-- The FORMAT sub-field names `WriteFeature` joins with `:`. -/
def writeFeatureFormat (f : Feature) : Option (List Str) :=
  placeByIndex f.Format



/-- Join pieces with a single-character separator (the shape of the
directive body before the trailing-comma trim). -/
def joinSep (sep : Char) : List Str → Str
  | [] => []
  | [p] => p
  | p :: ps => p ++ sep :: joinSep sep ps

/-- The five sub-field keys the directive assembler recognizes and stores
in typed fields. -/
def isRecognized (k : Str) : Bool :=
  decide (k = kID) || decide (k = kNumber) || decide (k = kType) ||
  decide (k = kDescription) || decide (k = kURL)

/-- The typed field of `Meta` that a recognized key reads from. -/
def typedValue (m : Meta) (k : Str) : Str :=
  if k = kID then m.Id
  else if k = kNumber then m.Number
  else if k = kType then m.Typ
  else if k = kDescription then m.Description
  else if k = kURL then m.Url
  else []

/-- The value a `FieldOrder` key contributes to the serialized directive:
recognized keys read their typed field, others read `Optional`. -/
def valOf (m : Meta) (k : Str) : Str :=
  if isRecognized k then typedValue m k else (aget m.Optional k).getD []

/-- A token free of the four delimiter characters of the directive wire
format. -/
def goodTok (s : Str) : Bool :=
  s.all (fun c => ¬ (c = '=' ∨ c = ',' ∨ c = '<' ∨ c = '>'))

/-- Validity of a structured directive for serialization round-tripping:
an explicit, duplicate-free `FieldOrder` listing every recognized key with
a non-empty typed value before every `Optional` key; stored values
non-empty; keys and values free of the wire delimiters; `FieldType` free
of `=` and not starting with `#`. -/
def ValidDirective (m : Meta) : Bool :=
  decide (m.FieldOrder ≠ []) &&
  decide m.FieldOrder.Nodup &&
  decide (m.FieldOrder = m.FieldOrder.filter (fun k => isRecognized k) ++
    m.FieldOrder.filter (fun k => ¬ isRecognized k)) &&
  m.FieldOrder.all (fun k =>
    goodTok k && decide (k ≠ kFieldType) &&
    (if isRecognized k then
        decide (typedValue m k ≠ []) && goodTok (typedValue m k) &&
          decide (aget m.Optional k = none)
      else (aget m.Optional k).isSome)) &&
  (decide (m.Id = []) || decide (kID ∈ m.FieldOrder)) &&
  (decide (m.Number = []) || decide (kNumber ∈ m.FieldOrder)) &&
  (decide (m.Typ = []) || decide (kType ∈ m.FieldOrder)) &&
  (decide (m.Description = []) || decide (kDescription ∈ m.FieldOrder)) &&
  (decide (m.Url = []) || decide (kURL ∈ m.FieldOrder)) &&
  decide (m.Optional.map Prod.fst).Nodup &&
  m.Optional.all (fun p =>
    decide (p.1 ∈ m.FieldOrder) && !(isRecognized p.1) && decide (p.2 ≠ []) && goodTok p.2) &&
  decide ('=' ∉ m.FieldType) && !([ '#' ].isPrefixOf m.FieldType)

/-- A successful `splitN2` decomposes its input around the first separator. -/
theorem splitN2_eq_append {sep : Char} :
    ∀ {s : Str} {p : Str × Str}, splitN2 sep s = some p → s = p.1 ++ sep :: p.2 := by
  intro s
  induction s with
  | nil => intro p h; simp [splitN2] at h
  | cons c cs ih =>
    intro p h
    by_cases hc : c = sep
    · subst hc
      simp [splitN2] at h
      simp [← h]
    · simp only [splitN2, if_neg hc, Option.map_eq_some'] at h
      obtain ⟨q, hq, rfl⟩ := h
      simp [ih hq]

/-- `splitChar` always produces at least one piece. -/
theorem splitChar_ne_nil (sep : Char) (s : Str) : splitChar sep s ≠ [] := by
  cases s with
  | nil => simp [splitChar]
  | cons c cs =>
    simp only [splitChar]
    rcases hr : splitChar sep cs with _ | ⟨p, ps⟩
    · simp
    · by_cases hc : c = sep <;> simp [hc]

/-- A one-piece split returns the whole input. -/
theorem splitChar_eq_singleton {sep : Char} :
    ∀ {s t : Str}, splitChar sep s = [t] → t = s := by
  intro s
  induction s with
  | nil =>
    intro t h
    simp [splitChar] at h
    exact h
  | cons c cs ih =>
    intro t h
    simp only [splitChar] at h
    rcases hr : splitChar sep cs with _ | ⟨p, ps⟩
    · exact absurd hr (splitChar_ne_nil sep cs)
    · rw [hr] at h
      by_cases hc : c = sep
      · simp [hc] at h
      · simp only [if_neg hc, List.cons.injEq] at h
        obtain ⟨h1, rfl⟩ := h
        have := ih hr
        simp [← h1, ← this]

/-- Unfolding lemma for `aget` on a cons cell. -/
theorem aget_cons {β : Type} (k' : Str) (v' : β) (m : List (Str × β)) (k : Str) :
    aget ((k', v') :: m) k = if k' = k then some v' else aget m k := by
  simp only [aget, List.find?]
  by_cases h : k' = k <;> simp [h]

/-- `aget` distributes over append, preferring the left map. -/
theorem aget_append {β : Type} (m₁ m₂ : List (Str × β)) (k : Str) :
    aget (m₁ ++ m₂) k =
      match aget m₁ k with
      | some v => some v
      | none => aget m₂ k := by
  induction m₁ with
  | nil => simp [aget]
  | cons p rest ih =>
    rcases p with ⟨k', v'⟩
    by_cases h : k' = k <;> simp [aget_cons, h, ih]

/-- A key is absent from a map exactly when `aget` misses. -/
theorem aget_eq_none_iff {β : Type} (m : List (Str × β)) (k : Str) :
    aget m k = none ↔ k ∉ m.map Prod.fst := by
  simp only [aget, Option.map_eq_none', List.find?_eq_none, decide_eq_true_eq, List.mem_map]
  constructor
  · intro h hmem
    obtain ⟨p, hp, hpk⟩ := hmem
    exact h p hp hpk
  · intro h p hp hpk
    exact h ⟨p, hp, hpk⟩

/-- A key is present in a map exactly when `aget` hits. -/
theorem aget_isSome_iff {β : Type} (m : List (Str × β)) (k : Str) :
    (aget m k).isSome = true ↔ k ∈ m.map Prod.fst := by
  rcases h : aget m k with _ | v
  · simp [(aget_eq_none_iff m k).mp h]
  · simp only [Option.isSome_some, true_iff]
    by_contra hmem
    rw [← aget_eq_none_iff] at hmem
    rw [h] at hmem
    cases hmem

/-- Inserting a fresh key appends it. -/
theorem mapInsert_of_aget_none {β : Type} {m : List (Str × β)} {k : Str} (v : β)
    (h : aget m k = none) : mapInsert m k v = m ++ [(k, v)] := by
  have hne : m.any (fun p => p.1 = k) = false := by
    rw [aget_eq_none_iff] at h
    simp only [List.any_eq_false, decide_eq_true_eq]
    intro p hp hpk
    exact h (List.mem_map.mpr ⟨p, hp, hpk⟩)
  simp [mapInsert, hne]

/-- Overwriting entries whose key is `k` does not change lookups at other
keys. -/
theorem aget_map_update_ne {β : Type} (m : List (Str × β)) (k : Str) (v : β)
    {k' : Str} (hne : ¬ k = k') :
    aget (m.map (fun p => if p.1 = k then (k, v) else p)) k' = aget m k' := by
  induction m with
  | nil => rfl
  | cons p rest ih =>
    rcases p with ⟨k₁, v₁⟩
    by_cases h₁ : k₁ = k
    · subst h₁
      simp [aget_cons, hne, ih]
    · simp only [List.map_cons, if_neg h₁, aget_cons]
      by_cases h₂ : k₁ = k' <;> simp [h₂, ih]

/-- Overwriting entries whose key is `k` makes lookup at `k` return the new
value, provided the key occurs. -/
theorem aget_map_update_self {β : Type} (m : List (Str × β)) (k : Str) (v : β)
    (hk : k ∈ m.map Prod.fst) :
    aget (m.map (fun p => if p.1 = k then (k, v) else p)) k = some v := by
  induction m with
  | nil => cases hk
  | cons p rest ih =>
    rcases p with ⟨k₁, v₁⟩
    by_cases h₁ : k₁ = k
    · subst h₁
      simp [aget_cons]
    · simp only [List.map_cons, if_neg h₁, aget_cons, if_neg h₁]
      apply ih
      simp only [List.map_cons, List.mem_cons] at hk
      rcases hk with h | h
      · exact absurd h.symm h₁
      · exact h

/-- `aget` and `mapInsert` interact like a functional map update. -/
theorem aget_mapInsert {β : Type} (m : List (Str × β)) (k : Str) (v : β) (k' : Str) :
    aget (mapInsert m k v) k' = if k = k' then some v else aget m k' := by
  by_cases hmem : m.any (fun p => p.1 = k)
  · have hrw : mapInsert m k v = m.map (fun p => if p.1 = k then (k, v) else p) := by
      simp [mapInsert, hmem]
    rw [hrw]
    by_cases hk : k = k'
    · subst hk
      rw [if_pos rfl]
      apply aget_map_update_self
      simp only [List.any_eq_true, decide_eq_true_eq] at hmem
      obtain ⟨p, hp, hpk⟩ := hmem
      exact List.mem_map.mpr ⟨p, hp, hpk⟩
    · rw [if_neg hk]
      exact aget_map_update_ne m k v hk
  · have hnone : aget m k = none := by
      rw [aget_eq_none_iff]
      simp only [List.any_eq_true, decide_eq_true_eq] at hmem
      intro hin
      obtain ⟨p, hp, hpk⟩ := List.mem_map.mp hin
      exact hmem ⟨p, hp, hpk⟩
    rw [mapInsert_of_aget_none v hnone, aget_append]
    by_cases hk : k = k'
    · subst hk
      simp [hnone, aget_cons]
    · rw [if_neg hk]
      rcases h : aget m k' with _ | w
      · simp [aget_cons, hk, aget]
      · rfl

/-- C1 (amended): for a header declaring `N` samples, `parseFeature`
accepts a record line iff its tab-separated field count is exactly 8, or is
at least 10 and exactly `9 + N`; every other count — including exactly
`9 + N` when `N = 0` — yields the `too few columns in feature line` error
and no Feature. -/
theorem c1_record_line_field_count (h : Header) (line : Str) :
    ((parseFeature h line).isOk = true ↔
      ((splitChar '\t' line).length = 8 ∨
        (10 ≤ (splitChar '\t' line).length ∧
          (splitChar '\t' line).length = 9 + h.Genotypes.length))) ∧
    (¬ ((splitChar '\t' line).length = 8 ∨
        (10 ≤ (splitChar '\t' line).length ∧
          (splitChar '\t' line).length = 9 + h.Genotypes.length)) →
      parseFeature h line = Except.error (GoErr.msg "too few columns in feature line")) := by
  by_cases hc : ((splitChar '\t' line).length < 8 ∨ (splitChar '\t' line).length = 9 ∨
      (10 ≤ (splitChar '\t' line).length ∧
        (splitChar '\t' line).length ≠ h.Genotypes.length + 1 + 8))
  · have herr : parseFeature h line =
        Except.error (GoErr.msg "too few columns in feature line") := by
      simp only [parseFeature]
      rw [if_pos hc]
    refine ⟨?_, fun _ => herr⟩
    rw [herr]
    simp only [Except.isOk, Except.toBool]
    constructor
    · intro hfalse
      cases hfalse
    · intro habs
      omega
  · have hok : ∃ f, parseFeature h line = Except.ok f := by
      simp only [parseFeature]
      rw [if_neg hc]
      by_cases h8 : 8 < (splitChar '\t' line).length
      · rw [if_pos h8]
        exact ⟨_, rfl⟩
      · rw [if_neg h8]
        exact ⟨_, rfl⟩
    obtain ⟨f, hf⟩ := hok
    refine ⟨?_, fun habs => ?_⟩
    · rw [hf]
      simp only [Except.isOk, Except.toBool, true_iff]
      omega
    · exfalso
      omega

/-- C1 counterexample: with a header declaring zero samples, a record line
of exactly 9 fields has field count `9 + N`, yet the parser rejects it —
the claim's "accepted iff count is 8 or 9+N" fails at `N = 0`. -/
theorem c1_nine_fields_rejected_at_zero_samples :
    (splitChar '\t' ("a\tb\tc\td\te\tf\tg\th\ti".toList)).length =
      9 + NewHeader.Genotypes.length ∧
    parseFeature NewHeader ("a\tb\tc\td\te\tf\tg\th\ti".toList) =
      Except.error (GoErr.msg "too few columns in feature line") := by
  constructor
  · rfl
  · rfl

/-- C1 witness: the amended theorem applied at a concrete 3-field line. -/
theorem c1_record_line_field_count_witness :
    parseFeature NewHeader ("a\tb\tc".toList) =
      Except.error (GoErr.msg "too few columns in feature line") :=
  (c1_record_line_field_count NewHeader ("a\tb\tc".toList)).2 (by decide)

/-- C9: whenever `SingleGenotype` returns an error — unknown sample name
(`genotype not in vcf`) or a colon-split piece count differing from
`len(Format)` (`genotype has improperly formatted data`) — the Feature is
returned unchanged: no `ParsedGenotypes` entry appears and no other field
is touched. -/
theorem c9_decode_errors_leave_record_unchanged
    (f : Feature) (gen : Str) (order : List (Str × Nat)) :
    (aget order gen = none →
      SingleGenotype f gen order = (GoExc.err "genotype not in vcf", f)) ∧
    (∀ loc raw, aget order gen = some loc →
      aget f.ParsedGenotypes gen = none →
      f.Genotypes[loc]? = some raw →
      (splitChar ':' raw).length ≠ f.Format.length →
      SingleGenotype f gen order =
        (GoExc.err "genotype has improperly formatted data", f)) ∧
    (∀ e out, SingleGenotype f gen order = (GoExc.err e, out) → out = f) := by
  refine ⟨?_, ?_, ?_⟩
  · intro h
    simp [SingleGenotype, h]
  · intro loc raw h1 h2 h3 h4
    simp [SingleGenotype, h1, h2, h3, h4]
  · intro e out h
    rcases h1 : aget order gen with _ | loc
    · have heq : SingleGenotype f gen order = (GoExc.err "genotype not in vcf", f) := by
        simp [SingleGenotype, h1]
      rw [heq] at h
      injection h with h5 h6
      exact h6.symm
    · rcases h2 : aget f.ParsedGenotypes gen with _ | pre
      · rcases h3 : f.Genotypes[loc]? with _ | raw
        · have heq : SingleGenotype f gen order = (GoExc.panic, f) := by
            simp [SingleGenotype, h1, h2, h3]
          rw [heq] at h
          injection h with h5 h6
          exact GoExc.noConfusion h5
        · by_cases h4 : (splitChar ':' raw).length ≠ f.Format.length
          · have heq : SingleGenotype f gen order =
                (GoExc.err "genotype has improperly formatted data", f) := by
              simp [SingleGenotype, h1, h2, h3, h4]
            rw [heq] at h
            injection h with h5 h6
            exact h6.symm
          · have h4' : (splitChar ':' raw).length = f.Format.length := not_ne_iff.mp h4
            rcases h5 : decodeFields (splitChar ':' raw) f.Format ([], [], false) with _ | st
            · have heq : SingleGenotype f gen order = (GoExc.panic, f) := by
                simp [SingleGenotype, h1, h2, h3, h4', h5]
              rw [heq] at h
              injection h with ha hb
              exact GoExc.noConfusion ha
            · have heq : (SingleGenotype f gen order).1 =
                  GoExc.ok { Id := gen, GT := st.2.1, PhasedGT := st.2.2, Fields := st.1 } := by
                simp [SingleGenotype, h1, h2, h3, h4', h5]
              have hcontra : (SingleGenotype f gen order).1 = GoExc.err e := by
                rw [h]
              rw [heq] at hcontra
              exact GoExc.noConfusion hcontra
      · have heq : SingleGenotype f gen order = (GoExc.ok pre, f) := by
          simp [SingleGenotype, h1, h2]
        rw [heq] at h
        injection h with h5 h6
        exact GoExc.noConfusion h5

/-- C9 witness: the theorem applied at a concrete feature and an absent
sample name, and at a concrete malformed genotype column. -/
theorem c9_decode_errors_leave_record_unchanged_witness :
    SingleGenotype { Format := [("GT".toList, 0)], Genotypes := [ "0|0".toList ] }
        ("NA2".toList) [("NA1".toList, 0)] =
      (GoExc.err "genotype not in vcf",
        { Format := [("GT".toList, 0)], Genotypes := [ "0|0".toList ] }) ∧
    SingleGenotype { Format := [("GT".toList, 0)], Genotypes := [ "0:1".toList ] }
        ("NA1".toList) [("NA1".toList, 0)] =
      (GoExc.err "genotype has improperly formatted data",
        { Format := [("GT".toList, 0)], Genotypes := [ "0:1".toList ] }) :=
  ⟨(c9_decode_errors_leave_record_unchanged _ _ _).1 (by decide),
   (c9_decode_errors_leave_record_unchanged _ _ _).2.1 0 ("0:1".toList)
     (by decide) (by decide) (by decide) (by decide)⟩

/-- C4: decoding a sample whose Format holds the key `GT`: the value is
split on `|`; more than one piece means `PhasedGT = true` with those pieces
as alleles, otherwise the value is re-split on `/` with `PhasedGT = false`;
allele token `.` maps to `-1` and any other token goes through the integer
parser.  In particular `0|0 ↦ (true, [0,0])`, `0/0 ↦ (false, [0,0])` and a
lone `. ↦ [-1]`, all checked through the full `SingleGenotype` decoder. -/
theorem c4_gt_split_and_phase (v : Str) (f : Feature) (gen : Str)
    (order : List (Str × Nat))
    (hfmt : f.Format = [([ 'G', 'T' ], 0)])
    (hgeno : f.Genotypes = [v])
    (hparsed : f.ParsedGenotypes = [])
    (horder : aget order gen = some 0)
    (hsplit : (splitChar ':' v).length = 1) :
    (SingleGenotype f gen order =
      (GoExc.ok { Id := gen, GT := (decodeGT v).2, PhasedGT := (decodeGT v).1,
                  Fields := [([ 'G', 'T' ], v)] },
       { f with ParsedGenotypes :=
           [(gen, { Id := gen, GT := (decodeGT v).2, PhasedGT := (decodeGT v).1,
                    Fields := [([ 'G', 'T' ], v)] })] }) ∧
     decodeGT v =
       (decide (1 < (splitChar '|' v).length),
        (if (splitChar '|' v).length = 1 then splitChar '/' v
         else splitChar '|' v).map
          (fun tok => if tok = [ '.' ] then (-1 : Int) else goAtoi tok))) ∧
    decodeGT ("0|0".toList) = (true, [0, 0]) ∧
    decodeGT ("0/0".toList) = (false, [0, 0]) ∧
    decodeGT (".".toList) = (false, [-1]) := by
  have hone : splitChar ':' v = [v] := by
    rcases hs : splitChar ':' v with _ | ⟨p, ps⟩
    · exact absurd hs (splitChar_ne_nil _ _)
    · rw [hs] at hsplit
      simp only [List.length_cons, Nat.add_left_eq_self, List.length_eq_zero] at hsplit
      subst hsplit
      rw [splitChar_eq_singleton hs]
  refine ⟨⟨?_, ?_⟩, by decide, by decide, by decide⟩
  · have hdec : decodeFields (splitChar ':' v) f.Format ([], [], false) =
        some ([([ 'G', 'T' ], v)], (decodeGT v).2, (decodeGT v).1) := by
      rw [hone, hfmt]
      simp [decodeFields, mapInsert]
    have hlen : (splitChar ':' v).length = f.Format.length := by
      rw [hfmt]
      simpa using hsplit
    have hnil : aget ([] : List (Str × Genotype)) gen = none := rfl
    simp [SingleGenotype, horder, hparsed, hgeno, hlen, hdec, mapInsert, hnil]
  · rfl

/-- C4 witness: the theorem applied to a concrete one-sample feature
carrying the genotype text `0|0`. -/
theorem c4_gt_split_and_phase_witness :
    SingleGenotype
        { Format := [([ 'G', 'T' ], 0)], Genotypes := [ "0|0".toList ] }
        ("NA1".toList) [("NA1".toList, 0)] =
      (GoExc.ok { Id := "NA1".toList, GT := [0, 0], PhasedGT := true,
                  Fields := [([ 'G', 'T' ], "0|0".toList)] },
       { Format := [([ 'G', 'T' ], 0)], Genotypes := [ "0|0".toList ],
         ParsedGenotypes :=
           [("NA1".toList,
             { Id := "NA1".toList, GT := [0, 0], PhasedGT := true,
               Fields := [([ 'G', 'T' ], "0|0".toList)] })] }) := by
  have h := (c4_gt_split_and_phase ("0|0".toList)
    { Format := [([ 'G', 'T' ], 0)], Genotypes := [ "0|0".toList ] }
    ("NA1".toList) [("NA1".toList, 0)]
    (by decide) (by decide) (by decide) (by decide) (by decide)).1.1
  rw [h]
  rfl

/-- Case analysis of one `SingleGenotype` call: a cache hit returns the
cached Genotype with the Feature untouched; a fresh successful decode
appends exactly one cache entry for the requested sample; every other
outcome leaves the Feature untouched and is not a Genotype. -/
theorem singleGenotype_cases (f : Feature) (gen : Str) (order : List (Str × Nat)) :
    (∃ g, SingleGenotype f gen order = (GoExc.ok g, f) ∧
        aget f.ParsedGenotypes gen = some g) ∨
    (∃ g, SingleGenotype f gen order =
        (GoExc.ok g, { f with ParsedGenotypes := f.ParsedGenotypes ++ [(gen, g)] }) ∧
        aget f.ParsedGenotypes gen = none) ∨
    ((SingleGenotype f gen order).2 = f ∧
      ∀ g, (SingleGenotype f gen order).1 ≠ GoExc.ok g) := by
  rcases h1 : aget order gen with _ | loc
  · right; right
    have heq : SingleGenotype f gen order = (GoExc.err "genotype not in vcf", f) := by
      simp [SingleGenotype, h1]
    rw [heq]
    exact ⟨rfl, fun g hg => GoExc.noConfusion hg⟩
  · rcases h2 : aget f.ParsedGenotypes gen with _ | pre
    · rcases h3 : f.Genotypes[loc]? with _ | raw
      · right; right
        have heq : SingleGenotype f gen order = (GoExc.panic, f) := by
          simp [SingleGenotype, h1, h2, h3]
        rw [heq]
        exact ⟨rfl, fun g hg => GoExc.noConfusion hg⟩
      · by_cases h4 : (splitChar ':' raw).length ≠ f.Format.length
        · right; right
          have heq : SingleGenotype f gen order =
              (GoExc.err "genotype has improperly formatted data", f) := by
            simp [SingleGenotype, h1, h2, h3, h4]
          rw [heq]
          exact ⟨rfl, fun g hg => GoExc.noConfusion hg⟩
        · have h4' : (splitChar ':' raw).length = f.Format.length := not_ne_iff.mp h4
          rcases h5 : decodeFields (splitChar ':' raw) f.Format ([], [], false) with _ | st
          · right; right
            have heq : SingleGenotype f gen order = (GoExc.panic, f) := by
              simp [SingleGenotype, h1, h2, h3, h4', h5]
            rw [heq]
            exact ⟨rfl, fun g hg => GoExc.noConfusion hg⟩
          · right; left
            refine ⟨{ Id := gen, GT := st.2.1, PhasedGT := st.2.2, Fields := st.1 }, ?_, rfl⟩
            have heq : SingleGenotype f gen order =
                (GoExc.ok { Id := gen, GT := st.2.1, PhasedGT := st.2.2, Fields := st.1 },
                 { f with ParsedGenotypes :=
                     (mapInsert f.ParsedGenotypes gen
                       ({ Id := gen, GT := st.2.1, PhasedGT := st.2.2, Fields := st.1 })) }) := by
              simp [SingleGenotype, h1, h2, h3, h4', h5]
            rw [heq, mapInsert_of_aget_none _ h2]
    · left
      exact ⟨pre, by simp [SingleGenotype, h1, h2], rfl⟩

/-- Cache-key bookkeeping of a call sequence: starting from a cache with
distinct keys, every sequence of `SingleGenotype` calls keeps the keys
distinct, and the final key set is the initial one plus the successfully
decoded names. -/
theorem runCalls_keys (order : List (Str × Nat)) (gens : List Str) :
    ∀ f : Feature, (f.ParsedGenotypes.map Prod.fst).Nodup →
      ((runCalls order f gens).1.ParsedGenotypes.map Prod.fst).Nodup ∧
      (∀ x, x ∈ (runCalls order f gens).1.ParsedGenotypes.map Prod.fst ↔
        (x ∈ f.ParsedGenotypes.map Prod.fst ∨ x ∈ (runCalls order f gens).2)) := by
  induction gens with
  | nil =>
    intro f hnd
    simp [runCalls, hnd]
  | cons gen gens ih =>
    intro f hnd
    rcases singleGenotype_cases f gen order with
      ⟨g, hc, hget⟩ | ⟨g, hc, hget⟩ | ⟨hstate, hnotok⟩
    · have hmem : gen ∈ f.ParsedGenotypes.map Prod.fst := by
        have := aget_isSome_iff f.ParsedGenotypes gen
        rw [hget] at this
        simpa using this
      have hrun : runCalls order f (gen :: gens) =
          ((runCalls order f gens).1, gen :: (runCalls order f gens).2) := by
        simp [runCalls, hc]
      obtain ⟨ihnd, ihiff⟩ := ih f hnd
      rw [hrun]
      refine ⟨ihnd, fun x => ?_⟩
      rw [ihiff x]
      constructor
      · rintro (hx | hx)
        · exact Or.inl hx
        · exact Or.inr (List.mem_cons_of_mem _ hx)
      · rintro (hx | hx)
        · exact Or.inl hx
        · rcases List.mem_cons.mp hx with rfl | hx
          · exact Or.inl hmem
          · exact Or.inr hx
    · have hnotmem : gen ∉ f.ParsedGenotypes.map Prod.fst :=
        (aget_eq_none_iff _ _).mp hget
      set f' : Feature :=
        { f with ParsedGenotypes := f.ParsedGenotypes ++ [(gen, g)] } with hf'
      have hnd' : (f'.ParsedGenotypes.map Prod.fst).Nodup := by
        simp only [hf', List.map_append, List.map_cons, List.map_nil]
        rw [List.nodup_append]
        exact ⟨hnd, List.nodup_singleton gen, by simpa using hnotmem⟩
      have hrun : runCalls order f (gen :: gens) =
          ((runCalls order f' gens).1, gen :: (runCalls order f' gens).2) := by
        simp [runCalls, hc]
      obtain ⟨ihnd, ihiff⟩ := ih f' hnd'
      rw [hrun]
      refine ⟨ihnd, fun x => ?_⟩
      rw [ihiff x]
      have hkeys : f'.ParsedGenotypes.map Prod.fst =
          f.ParsedGenotypes.map Prod.fst ++ [gen] := by
        simp [hf']
      rw [hkeys]
      simp only [List.mem_append, List.mem_singleton, List.mem_cons]
      tauto
    · rcases hsg : SingleGenotype f gen order with ⟨res, fpost⟩
      have hpost : fpost = f := by
        have := hstate
        rw [hsg] at this
        exact this
      cases res with
      | ok g =>
        exfalso
        exact hnotok g (by rw [hsg])
      | err e =>
        have hrun : runCalls order f (gen :: gens) = runCalls order fpost gens := by
          simp [runCalls, hsg]
        rw [hrun, hpost]
        exact ih f hnd
      | panic =>
        have hrun : runCalls order f (gen :: gens) = runCalls order fpost gens := by
          simp [runCalls, hsg]
        rw [hrun, hpost]
        exact ih f hnd

/-- C2: decoding is idempotent — once a call returns a Genotype, repeating
it on the resulting Record returns the same (cached) Genotype and leaves
the Record unchanged — and after any sequence of decode calls on a fresh
Record the cache holds exactly one entry per distinct successfully decoded
sample. -/
theorem c2_decode_idempotent_and_cached :
    (∀ (f : Feature) (gen : Str) (order : List (Str × Nat)) (g : Genotype) (f' : Feature),
      SingleGenotype f gen order = (GoExc.ok g, f') →
      SingleGenotype f' gen order = (GoExc.ok g, f')) ∧
    (∀ (order : List (Str × Nat)) (gens : List Str) (f : Feature),
      f.ParsedGenotypes = [] →
      ((runCalls order f gens).1.ParsedGenotypes.map Prod.fst).Nodup ∧
      (∀ x, x ∈ (runCalls order f gens).1.ParsedGenotypes.map Prod.fst ↔
        x ∈ (runCalls order f gens).2)) := by
  constructor
  · intro f gen order g f' h
    rcases h1 : aget order gen with _ | loc
    · have heq : SingleGenotype f gen order = (GoExc.err "genotype not in vcf", f) := by
        simp [SingleGenotype, h1]
      rw [heq] at h
      injection h with ha hb
      exact GoExc.noConfusion ha
    · rcases singleGenotype_cases f gen order with
        ⟨g₀, hc, hget⟩ | ⟨g₀, hc, hget⟩ | ⟨hstate, hnotok⟩
      · rw [h] at hc
        injection hc with ha hb
        injection ha with ha
        subst ha
        subst hb
        simp [SingleGenotype, h1, hget]
      · rw [h] at hc
        injection hc with ha hb
        injection ha with ha
        subst ha
        subst hb
        have hget' : aget ({ f with ParsedGenotypes :=
            f.ParsedGenotypes ++ [(gen, g)] } : Feature).ParsedGenotypes gen = some g := by
          simp only []
          rw [aget_append, hget, aget_cons, if_pos rfl]
        simp [SingleGenotype, h1, hget']
      · exact absurd (by rw [h] : (SingleGenotype f gen order).1 = GoExc.ok g) (hnotok g)
  · intro order gens f hempty
    have hnd : (f.ParsedGenotypes.map Prod.fst).Nodup := by
      rw [hempty]
      exact List.nodup_nil
    obtain ⟨h1, h2⟩ := runCalls_keys order gens f hnd
    refine ⟨h1, fun x => ?_⟩
    rw [h2 x, hempty]
    simp

/-- C2 witness: the idempotence half applied to a concrete decode of the
sample `NA1`. -/
theorem c2_decode_idempotent_and_cached_witness :
    SingleGenotype
        { Format := [([ 'G', 'T' ], 0)], Genotypes := [ "0|0".toList ],
          ParsedGenotypes :=
            [("NA1".toList,
              { Id := "NA1".toList, GT := [0, 0], PhasedGT := true,
                Fields := [([ 'G', 'T' ], "0|0".toList)] })] }
        ("NA1".toList) [("NA1".toList, 0)] =
      (GoExc.ok { Id := "NA1".toList, GT := [0, 0], PhasedGT := true,
                  Fields := [([ 'G', 'T' ], "0|0".toList)] },
       { Format := [([ 'G', 'T' ], 0)], Genotypes := [ "0|0".toList ],
         ParsedGenotypes :=
           [("NA1".toList,
             { Id := "NA1".toList, GT := [0, 0], PhasedGT := true,
               Fields := [([ 'G', 'T' ], "0|0".toList)] })] }) :=
  c2_decode_idempotent_and_cached.1
    { Format := [([ 'G', 'T' ], 0)], Genotypes := [ "0|0".toList ] }
    ("NA1".toList) [("NA1".toList, 0)] _ _ (by decide)

/-- Folding fresh-keyed inserts over an accumulator just appends the
swapped pairs. -/
theorem foldl_mapInsert_enum {β : Type} :
    ∀ (l : List (β × Str)) (acc : List (Str × β)),
      (l.map Prod.snd).Nodup →
      (∀ k, k ∈ l.map Prod.snd → aget acc k = none) →
      l.foldl (fun m p => mapInsert m p.2 p.1) acc =
        acc ++ l.map (fun p => (p.2, p.1)) := by
  intro l
  induction l with
  | nil => intro acc _ _; simp
  | cons p rest ih =>
    intro acc hnd hfresh
    rcases p with ⟨v, k⟩
    simp only [List.foldl_cons]
    have hins : mapInsert acc k v = acc ++ [(k, v)] :=
      mapInsert_of_aget_none v (hfresh k (by simp))
    rw [hins]
    have hnd' : (rest.map Prod.snd).Nodup := by
      simp only [List.map_cons, List.nodup_cons] at hnd
      exact hnd.2
    have hknotin : k ∉ rest.map Prod.snd := by
      simp only [List.map_cons, List.nodup_cons] at hnd
      exact hnd.1
    have hfresh' : ∀ k', k' ∈ rest.map Prod.snd → aget (acc ++ [(k, v)]) k' = none := by
      intro k' hk'
      rw [aget_append, hfresh k' (by simp [hk'])]
      rw [aget_cons]
      have : ¬ k = k' := fun hkk => hknotin (hkk ▸ hk')
      simp [this, aget]
    rw [ih (acc ++ [(k, v)]) hnd' hfresh']
    simp

/-- Lookup in the swapped enumeration of a duplicate-free name list. -/
theorem aget_enumFrom_swap :
    ∀ (names : List Str), names.Nodup →
      ∀ (k i : Nat) (hi : i < names.length),
        aget ((List.enumFrom k names).map (fun p => (p.2, p.1)))
            (names.get ⟨i, hi⟩) = some (k + i) := by
  intro names
  induction names with
  | nil => intro _ k i hi; cases hi
  | cons n rest ih =>
    intro hnd k i hi
    cases i with
    | zero =>
      simp [List.enumFrom, aget_cons]
    | succ j =>
      have hj : j < rest.length := by simpa using hi
      have hne : ¬ n = rest.get ⟨j, hj⟩ := by
        intro hcontra
        exact (List.nodup_cons.mp hnd).1 (hcontra ▸ rest.get_mem j hj)
      have hget : ((n :: rest).get ⟨j + 1, hi⟩) = rest.get ⟨j, hj⟩ := rfl
      rw [hget]
      simp only [List.enumFrom, List.map_cons, aget_cons, if_neg hne]
      rw [ih (List.nodup_cons.mp hnd).2 (k + 1) j hj]
      congr 1
      omega

/-- With distinct sample names, `buildGenotypes` maps the `i`-th name to
index `i`. -/
theorem buildGenotypes_aget (names : List Str) (hnd : names.Nodup)
    (i : Nat) (hi : i < names.length) :
    aget (buildGenotypes names) (names.get ⟨i, hi⟩) = some i := by
  have hswap : buildGenotypes names = names.enum.map (fun p => (p.2, p.1)) := by
    have h1 : (names.enum.map Prod.snd).Nodup := by
      rw [List.enum_map_snd]
      exact hnd
    have := foldl_mapInsert_enum names.enum [] h1 (fun k _ => rfl)
    simpa [buildGenotypes] using this
  rw [hswap]
  have := aget_enumFrom_swap names hnd 0 i hi
  simpa [List.enum] using this

/-- On a line with exactly one leading `#` (at any line number other than
1), NewReader's loop body takes the column-header branch. -/
theorem readerStep_header_branch (h : Header) (n : Nat) (t : Str) (hn : n ≠ 1)
    (hnot2 : ([ '#' ].isPrefixOf t) = false) :
    readerStep h n ('#' :: t) =
      (if (splitChar '\t' ('#' :: t)).length < 8 then
        StepRes.brk h true (some (GoErr.msg "header has too few columns to be minimum vcf"))
      else if (splitChar '\t' ('#' :: t)).length = 9 then
        if (splitChar '\t' ('#' :: t)).getD 8 [] ≠ kFORMAT then
          StepRes.brk h true (some (GoErr.msg "header needs a FORMAT column before adding genotypes"))
        else
          StepRes.brk h true (some (GoErr.msg "header FORMAT column must be followed by at least one genotype"))
      else if 10 ≤ (splitChar '\t' ('#' :: t)).length then
        StepRes.brk { h with Genotypes := buildGenotypes ((splitChar '\t' ('#' :: t)).drop 9) } true none
      else StepRes.brk h true none) := by
  unfold readerStep
  rw [if_neg hn]
  have hpp : ([ '#', '#' ].isPrefixOf ('#' :: t)) = false := by
    simpa [List.isPrefixOf] using hnot2
  have hp : ([ '#' ].isPrefixOf ('#' :: t)) = true := by
    simp [List.isPrefixOf]
  rw [hpp, hp]
  simp

/-- C5: a column-header line (exactly one leading `#`): fewer than 8
tab-fields fails with the too-few-columns error; exactly 9 fields fails
with the missing-FORMAT error when the ninth field is not literally
`FORMAT` and with the FORMAT-without-genotype error when it is; 10 or more
fields installs `Genotypes`, mapping each sample name (tab-fields 10
onward) to its zero-based index among the sample columns; and the line
terminates header parsing — the loop result does not depend on the rest of
the stream. -/
theorem c5_column_header_line (h : Header) (t : Str) (n : Nat)
    (hn : n ≠ 1) (hnot2 : ([ '#' ].isPrefixOf t) = false) :
    (((splitChar '\t' ('#' :: t)).length < 8 →
        readerStep h n ('#' :: t) =
          StepRes.brk h true (some (GoErr.msg "header has too few columns to be minimum vcf"))) ∧
     ((splitChar '\t' ('#' :: t)).length = 9 →
        (splitChar '\t' ('#' :: t)).getD 8 [] ≠ kFORMAT →
        readerStep h n ('#' :: t) =
          StepRes.brk h true (some (GoErr.msg "header needs a FORMAT column before adding genotypes"))) ∧
     ((splitChar '\t' ('#' :: t)).length = 9 →
        (splitChar '\t' ('#' :: t)).getD 8 [] = kFORMAT →
        readerStep h n ('#' :: t) =
          StepRes.brk h true (some (GoErr.msg "header FORMAT column must be followed by at least one genotype"))) ∧
     (10 ≤ (splitChar '\t' ('#' :: t)).length →
        readerStep h n ('#' :: t) =
          StepRes.brk { h with Genotypes := buildGenotypes ((splitChar '\t' ('#' :: t)).drop 9) }
            true none ∧
        (((splitChar '\t' ('#' :: t)).drop 9).Nodup →
          ∀ i (hi : i < ((splitChar '\t' ('#' :: t)).drop 9).length),
            aget (buildGenotypes ((splitChar '\t' ('#' :: t)).drop 9))
                (((splitChar '\t' ('#' :: t)).drop 9).get ⟨i, hi⟩) = some i))) ∧
    (∀ (lineNo : Nat) (eof : Bool) (rest rest' : List (Str × Bool)), lineNo ≠ 0 →
      newReaderLoop h lineNo (('#' :: t, eof) :: rest) =
        newReaderLoop h lineNo (('#' :: t, eof) :: rest')) := by
  have hred := readerStep_header_branch h n t hn hnot2
  refine ⟨⟨?_, ?_, ?_, ?_⟩, ?_⟩
  · intro h8
    rw [hred, if_pos h8]
  · intro h9 hfmt
    rw [hred, if_neg (by omega), if_pos h9, if_pos hfmt]
  · intro h9 hfmt
    rw [hred, if_neg (by omega), if_pos h9, if_neg (by simpa using hfmt)]
  · intro h10
    refine ⟨?_, ?_⟩
    · rw [hred, if_neg (by omega), if_neg (by omega), if_pos h10]
    · intro hnd i hi
      exact buildGenotypes_aget _ hnd i hi
  · intro lineNo eof rest rest' hln
    have hred' := readerStep_header_branch h (lineNo + 1) t (by omega) hnot2
    obtain ⟨h', fb, e, hstep⟩ :
        ∃ h' fb e, readerStep h (lineNo + 1) ('#' :: t) = StepRes.brk h' fb e := by
      rw [hred']
      by_cases c1 : (splitChar '\t' ('#' :: t)).length < 8
      · exact ⟨_, _, _, by rw [if_pos c1]⟩
      · by_cases c2 : (splitChar '\t' ('#' :: t)).length = 9
        · by_cases c3 : (splitChar '\t' ('#' :: t)).getD 8 [] ≠ kFORMAT
          · exact ⟨_, _, _, by rw [if_neg c1, if_pos c2, if_pos c3]⟩
          · exact ⟨_, _, _, by rw [if_neg c1, if_pos c2, if_neg c3]⟩
        · by_cases c4 : 10 ≤ (splitChar '\t' ('#' :: t)).length
          · exact ⟨_, _, _, by rw [if_neg c1, if_neg c2, if_pos c4]⟩
          · exact ⟨_, _, _, by rw [if_neg c1, if_neg c2, if_neg c4]⟩
    simp [newReaderLoop, hstep]

/-- C5 witness: the theorem applied to the minimal 8-column header line
and to a 10-column header line with one sample. -/
theorem c5_column_header_line_witness :
    readerStep NewHeader 2 ("#CHROM\tPOS\tID\tREF\tALT\tQUAL\tFILTER\tINFO\tFORMAT\tNA00001".toList) =
      StepRes.brk
        { NewHeader with
            Genotypes := buildGenotypes
              ((splitChar '\t' ("#CHROM\tPOS\tID\tREF\tALT\tQUAL\tFILTER\tINFO\tFORMAT\tNA00001".toList)).drop 9) }
        true none ∧
    aget (buildGenotypes
        ((splitChar '\t' ("#CHROM\tPOS\tID\tREF\tALT\tQUAL\tFILTER\tINFO\tFORMAT\tNA00001".toList)).drop 9))
      ("NA00001".toList) = some 0 := by
  have h := (c5_column_header_line NewHeader
    ("CHROM\tPOS\tID\tREF\tALT\tQUAL\tFILTER\tINFO\tFORMAT\tNA00001".toList) 2
    (by decide) (by decide)).1.2.2.2 (by decide)
  exact ⟨h.1, by
    have h2 := h.2 (by decide) 0 (by decide)
    exact h2⟩

/-- `toLinesAux` on input whose first newline terminates the first line. -/
theorem toLinesAux_newline :
    ∀ (l : Str) (acc r : Str), '\n' ∉ l →
      toLinesAux acc (l ++ '\n' :: r) =
        (acc.reverse ++ l ++ [ '\n' ], false) :: toLinesAux [] r := by
  intro l
  induction l with
  | nil =>
    intro acc r _
    simp [toLinesAux]
  | cons c cs ih =>
    intro acc r hnl
    have hc : ¬ c = '\n' := fun hc => hnl (hc ▸ List.mem_cons_self c cs)
    simp only [List.cons_append, toLinesAux, if_neg hc, List.append_eq]
    rw [ih (c :: acc) r (fun hmem => hnl (List.mem_cons_of_mem c hmem))]
    simp

/-- The first delivered line of a stream whose head line ends in `\n`. -/
theorem toLines_cons_line (l r : Str) (hnl : '\n' ∉ l) :
    toLines (l ++ '\n' :: r) = (l ++ [ '\n' ], false) :: toLines r := by
  unfold toLines
  rw [toLinesAux_newline l [] r hnl]
  simp

/-- C6 (amended): NewReader proceeds past line 1 exactly when
`parseLineToMeta` succeeds on it with `FieldType = "fileformat"` — whether
the directive is simple or structured — storing the `ID` value as
`Header.FileFormat`; when line 1 fails this test the loop records the
`fileformat is not vcf` error, but the no-header-line overwrite replaces
it, so NewReader surfaces the `no header line present` error. -/
theorem c6_first_line_fileformat (h : Header) (line : Str) :
    (parseLineToMeta line = none →
      readerStep h 1 line = StepRes.brk h false (some (GoErr.msg "fileformat is not vcf"))) ∧
    (∀ mv mo fm, parseLineToMeta line = some (mv, mo, fm) →
      agetD mv kFieldType ≠ kfileformat →
      readerStep h 1 line = StepRes.brk h false (some (GoErr.msg "fileformat is not vcf"))) ∧
    (∀ mv mo fm, parseLineToMeta line = some (mv, mo, fm) →
      agetD mv kFieldType = kfileformat →
      readerStep h 1 line = StepRes.cont { h with FileFormat := agetD mv kID }) ∧
    (∀ r : Str, '\n' ∉ line →
      (parseLineToMeta (line ++ [ '\n' ]) = none ∨
        (∀ mv mo fm, parseLineToMeta (line ++ [ '\n' ]) = some (mv, mo, fm) →
          agetD mv kFieldType ≠ kfileformat)) →
      NewReader (line ++ '\n' :: r) = Except.error (GoErr.msg "no header line present")) := by
  refine ⟨?_, ?_, ?_, ?_⟩
  · intro hpm
    simp [readerStep, hpm]
  · intro mv mo fm hpm hft
    simp [readerStep, hpm, hft]
  · intro mv mo fm hpm hft
    simp [readerStep, hpm, hft]
  · intro r hnl hfail
    have hstep : readerStep NewHeader 1 (line ++ [ '\n' ]) =
        StepRes.brk NewHeader false (some (GoErr.msg "fileformat is not vcf")) := by
      rcases hpm : parseLineToMeta (line ++ [ '\n' ]) with _ | ⟨mv, mo, fm⟩
      · simp [readerStep, hpm]
      · rcases hfail with hnone | hwrong
        · rw [hpm] at hnone
          cases hnone
        · simp [readerStep, hpm, hwrong mv mo fm hpm]
    have hloop : newReaderLoop NewHeader 0 ((line ++ [ '\n' ], false) :: toLines r) =
        (NewHeader, false, line ++ [ '\n' ], some (GoErr.msg "fileformat is not vcf"), 1) := by
      simp [newReaderLoop, hstep]
    unfold NewReader
    rw [toLines_cons_line line r hnl, hloop]
    simp

/-- C6 counterexample: line 1 `##fileformat=<ID=vcf>` classifies as a
*structured* directive, yet NewReader accepts it and proceeds; moreover a
first line failing the fileformat test surfaces the `no header line
present` error, not `fileformat is not vcf`. -/
theorem c6_structured_fileformat_accepted :
    parseLineToMeta ("##fileformat=<ID=vcf>\n".toList) =
      some ([(kFieldType, "fileformat".toList), (kID, "vcf".toList)],
            [kFieldType, kID], true) ∧
    (NewReader ("##fileformat=<ID=vcf>\n#CHROM\tPOS\tID\tREF\tALT\tQUAL\tFILTER\tINFO".toList)).isOk
      = true ∧
    NewReader ("bad\n#CHROM\tPOS\tID\tREF\tALT\tQUAL\tFILTER\tINFO".toList) =
      Except.error (GoErr.msg "no header line present") := by
  refine ⟨by decide, by decide, by decide⟩

/-- C6 witness: the amended theorem applied to a concrete valid first line
and to a concrete rejected one. -/
theorem c6_first_line_fileformat_witness :
    readerStep NewHeader 1 ("##fileformat=VCFv4.2".toList) =
      StepRes.cont { NewHeader with FileFormat := "VCFv4.2".toList } ∧
    NewReader ("nonsense\nrest".toList) =
      Except.error (GoErr.msg "no header line present") :=
  ⟨(c6_first_line_fileformat NewHeader ("##fileformat=VCFv4.2".toList)).2.2.1
      [(kFieldType, "fileformat".toList), (kID, "VCFv4.2".toList)]
      [kFieldType, kID] false (by decide) (by decide),
   (c6_first_line_fileformat NewHeader ("nonsense".toList)).2.2.2
      ("rest".toList) (by decide) (Or.inl (by decide))⟩

/-- C7: evaluation of NewReader at the inputs on which the claimed
`NoHeaderLine`/EOF reporting breaks down.  An empty stream (zero bytes
read) returns a successful Reader rather than a clean EOF, and a stream
that ends right after its meta lines (final read delivers the empty line
with EOF) also returns a successful Reader rather than the
`no header line present` error: the error is assigned in the loop but the
final filter (`len(line) == 0 && readErr != io.EOF`) drops it.  Only when
the last delivered line is non-empty is the error surfaced. -/
theorem c7_no_header_line_slips_through :
    NewReader [] = Except.ok (NewHeader, 1) ∧
    NewReader ("##fileformat=VCFv4.2\n".toList) =
      Except.ok ({ NewHeader with FileFormat := "VCFv4.2".toList }, 2) ∧
    NewReader ("##fileformat=VCFv4.2".toList) =
      Except.error (GoErr.msg "no header line present") :=
  ⟨by decide, by decide, by decide⟩

/-- C8 (amended): the record parser never maps QUAL text to the sentinel:
`Qual` is always the parsed float value with 0 for unparsable text — the
missing marker `.` is itself unparsable, so it silently yields the zero
value, which is not the sentinel `MissingQualField`.  `QualFormat` is `e`
iff the QUAL text contains an exponent marker, else `f`.  Only the writer
consults the sentinel, emitting `.` exactly when `Qual` equals it. -/
theorem c8_qual_zero_not_sentinel (h : Header) (line : Str) (f : Feature)
    (hok : parseFeature h line = Except.ok f) :
    (f.QualFormat = 'e' ↔
      (((splitChar '\t' line).map trimSpace).getD 5 []).any (fun c => c = 'e' ∨ c = 'E')) ∧
    (f.QualFormat = 'e' ∨ f.QualFormat = 'f') ∧
    f.Qual = (goParseFloat (((splitChar '\t' line).map trimSpace).getD 5 [])).getD 0 ∧
    goParseFloat [ '.' ] = none ∧
    MissingQualField ≠ 0 ∧
    (∀ fmtFloat : ℚ → Char → Str, (∀ q c, fmtFloat q c ≠ [ '.' ]) →
      (writeQual fmtFloat f = [ '.' ] ↔ f.Qual = MissingQualField)) := by
  have hcond : ¬ ((splitChar '\t' line).length < 8 ∨ (splitChar '\t' line).length = 9 ∨
      (10 ≤ (splitChar '\t' line).length ∧
        (splitChar '\t' line).length ≠ h.Genotypes.length + 1 + 8)) := by
    intro hc
    unfold parseFeature at hok
    rw [if_pos hc] at hok
    exact Except.noConfusion hok
  have hex : f.QualFormat =
      (if (((splitChar '\t' line).map trimSpace).getD 5 []).any (fun c => c = 'e' ∨ c = 'E')
        then 'e' else 'f') ∧
      f.Qual = (goParseFloat (((splitChar '\t' line).map trimSpace).getD 5 [])).getD 0 := by
    unfold parseFeature at hok
    rw [if_neg hcond] at hok
    by_cases h8 : 8 < (splitChar '\t' line).length
    · rw [if_pos h8] at hok
      injection hok with hf
      subst hf
      exact ⟨rfl, rfl⟩
    · rw [if_neg h8] at hok
      injection hok with hf
      subst hf
      exact ⟨rfl, rfl⟩
  obtain ⟨hqf, hq⟩ := hex
  refine ⟨?_, ?_, hq, by decide, ?_, ?_⟩
  · rw [hqf]
    by_cases ha : (((splitChar '\t' line).map trimSpace).getD 5 []).any
        (fun c => c = 'e' ∨ c = 'E') = true
    · rw [if_pos ha]
      exact iff_of_true rfl ha
    · rw [if_neg ha]
      exact iff_of_false (by decide) ha
  · rw [hqf]
    by_cases ha : (((splitChar '\t' line).map trimSpace).getD 5 []).any
        (fun c => c = 'e' ∨ c = 'E') = true
    · exact Or.inl (if_pos ha)
    · exact Or.inr (if_neg ha)
  · unfold MissingQualField
    norm_num
  · intro fmtFloat hfmt
    unfold writeQual
    by_cases hqual : f.Qual = MissingQualField
    · simp [hqual]
    · simp [hqual, hfmt f.Qual f.QualFormat]

/-- C8 counterexample: on a record line whose QUAL field is the literal
missing marker `.`, the parsed `Qual` is the zero value, not the sentinel
`MissingQualField` — the parser treats `.` like any other unparsable
text. -/
theorem c8_missing_marker_parses_to_zero :
    (parseFeature NewHeader ("20\t14370\ttrs\tG\tA\t.\tPASS\tNS=3".toList)).map
        (fun f => f.Qual) = Except.ok 0 ∧
    (0 : ℚ) ≠ MissingQualField := by
  constructor
  · decide
  · unfold MissingQualField
    norm_num

/-- C8 witness: the amended theorem applied to a concrete 8-field record
line with exponential QUAL text. -/
theorem c8_qual_zero_not_sentinel_witness :
    ({ Chrom := [ 'a' ], Pos := 0, Id := [ 'c' ], Ref := [ 'd' ], Alt := [[ 'e' ]],
       Qual := 0, QualFormat := 'f', Filter := [ 'g' ],
       Info := [([ 'h' ], [ 'h' ])], InfoOrder := [([ 'h' ], 0)] } : Feature).QualFormat = 'e' ∨
    ({ Chrom := [ 'a' ], Pos := 0, Id := [ 'c' ], Ref := [ 'd' ], Alt := [[ 'e' ]],
       Qual := 0, QualFormat := 'f', Filter := [ 'g' ],
       Info := [([ 'h' ], [ 'h' ])], InfoOrder := [([ 'h' ], 0)] } : Feature).QualFormat = 'f' :=
  (c8_qual_zero_not_sentinel NewHeader ("a\tb\tc\td\te\tx\tg\th".toList) _ (by decide)).2.1

/-- The indexed-write fold never recovers from a panic. -/
theorem placeFold_none_absorbing (l : List (Str × Nat)) :
    l.foldl
      (fun (acc : Option (List Str)) (p : Str × Nat) =>
        acc.bind (fun slots =>
          if p.2 < slots.length then some (slots.set p.2 p.1) else none))
      none = none := by
  induction l with
  | nil => rfl
  | cons p rest ih =>
    simp only [List.foldl_cons, Option.none_bind]
    exact ih

/-- Characterization of the indexed-write fold when the map's values are
distinct and in range: it succeeds, preserves the slot count, writes each
key at its stored index, and leaves untargeted slots alone. -/
theorem placeFold_spec :
    ∀ (l : List (Str × Nat)) (slots : List Str),
      (l.map Prod.snd).Nodup →
      (∀ p ∈ l, p.2 < slots.length) →
      ∃ out,
        l.foldl
          (fun acc p =>
            acc.bind (fun s =>
              if p.2 < s.length then some (s.set p.2 p.1) else none))
          (some slots) = some out ∧
        out.length = slots.length ∧
        (∀ p ∈ l, out[p.2]? = some p.1) ∧
        (∀ j, j ∉ l.map Prod.snd → out[j]? = slots[j]?) := by
  intro l
  induction l with
  | nil =>
    intro slots _ _
    exact ⟨slots, rfl, rfl, by simp, fun j _ => rfl⟩
  | cons p rest ih =>
    intro slots hnd hb
    rcases p with ⟨k, v⟩
    have hv : v < slots.length := hb (k, v) (List.mem_cons_self _ _)
    have hnd' : (rest.map Prod.snd).Nodup := (List.nodup_cons.mp (by simpa using hnd)).2
    have hvnotin : v ∉ rest.map Prod.snd := (List.nodup_cons.mp (by simpa using hnd)).1
    have hb' : ∀ q ∈ rest, q.2 < (slots.set v k).length := by
      intro q hq
      rw [List.length_set]
      exact hb q (List.mem_cons_of_mem _ hq)
    obtain ⟨out, hout, hlen, hplace, hold⟩ := ih (slots.set v k) hnd' hb'
    refine ⟨out, ?_, ?_, ?_, ?_⟩
    · simpa [hv] using hout
    · rw [hlen, List.length_set]
    · intro q hq
      rcases List.mem_cons.mp hq with rfl | hq'
      · show out[v]? = some k
        rw [hold v hvnotin]
        exact List.getElem?_set_eq_of_lt k hv
      · exact hplace q hq'
    · intro j hj
      have hjv : j ≠ v := fun hjv => hj (by simp [hjv])
      rw [hold j (fun hmem => hj (by simp [hmem]))]
      exact List.getElem?_set_ne (fun hvj => hjv hvj.symm)

/-- If some stored index is out of range, the indexed-write fold panics. -/
theorem placeFold_oob :
    ∀ (l : List (Str × Nat)) (slots : List Str),
      (∃ p ∈ l, slots.length ≤ p.2) →
      l.foldl
        (fun (acc : Option (List Str)) (p : Str × Nat) =>
          acc.bind (fun s =>
            if p.2 < s.length then some (s.set p.2 p.1) else none))
        (some slots) = none := by
  intro l
  induction l with
  | nil =>
    intro slots h
    obtain ⟨p, hp, _⟩ := h
    cases hp
  | cons q rest ih =>
    intro slots h
    by_cases hq : q.2 < slots.length
    · simp only [List.foldl_cons, Option.some_bind, if_pos hq]
      apply ih
      obtain ⟨p, hp, hple⟩ := h
      rcases List.mem_cons.mp hp with rfl | hp'
      · omega
      · exact ⟨p, hp', by simpa [List.length_set] using hple⟩
    · simp only [List.foldl_cons, Option.some_bind, if_neg hq]
      exact placeFold_none_absorbing rest

/-- When the stored indices are exactly `{0,…,n-1}`, the indexed placement
is well-defined: every iteration order of the map produces the same fully
determined slice, holding each key at its stored index. -/
theorem placeByIndex_perm_spec (entries l' : List (Str × Nat))
    (hperm : (entries.map Prod.snd).Perm (List.range entries.length))
    (hl : l'.Perm entries) :
    placeByIndex l' = placeByIndex entries ∧
    ∃ out, placeByIndex entries = some out ∧ out.length = entries.length ∧
      ∀ p ∈ entries, out[p.2]? = some p.1 := by
  have hnd : (entries.map Prod.snd).Nodup := hperm.nodup_iff.mpr (List.nodup_range _)
  have hbound : ∀ p ∈ entries, p.2 < entries.length := by
    intro p hp
    have : p.2 ∈ entries.map Prod.snd := List.mem_map_of_mem _ hp
    have := hperm.mem_iff.mp this
    simpa [List.mem_range] using this
  have hlen : l'.length = entries.length := hl.length_eq
  have hndl : (l'.map Prod.snd).Nodup := ((hl.map Prod.snd).nodup_iff).mpr hnd
  have hboundl : ∀ p ∈ l', p.2 < entries.length := fun p hp =>
    hbound p (hl.mem_iff.mp hp)
  obtain ⟨oute, he, hlene, hplacee, holde⟩ :=
    placeFold_spec entries (List.replicate entries.length []) hnd
      (by simpa using hbound)
  obtain ⟨outl, hlfold, hlenl, hplacel, holdl⟩ :=
    placeFold_spec l' (List.replicate entries.length []) hndl
      (by simpa using hboundl)
  have hplace' : placeByIndex l' = some outl := by
    unfold placeByIndex
    rw [hlen]
    exact hlfold
  have hplacee' : placeByIndex entries = some oute := he
  have hout : outl = oute := by
    apply List.ext_getElem?
    intro j
    by_cases hj : j ∈ entries.map Prod.snd
    · obtain ⟨p, hp, hpj⟩ := List.mem_map.mp hj
      rw [← hpj]
      rw [hplacel p (hl.mem_iff.mpr hp), hplacee p hp]
    · have hjl : j ∉ l'.map Prod.snd := fun hmem => hj ((hl.map Prod.snd).mem_iff.mp hmem)
      rw [holdl j hjl, holde j hj]
  refine ⟨?_, oute, hplacee', by simpa using hlene, hplacee⟩
  rw [hplace', hplacee', hout]

/-- C10 (amended): the writer's indexed placement — sample names in
`WriteHeader`, FORMAT sub-field names in `WriteFeature` — is well-defined
exactly under the precondition that the map's index values are the set
`{0,…,n-1}`: then every iteration order yields the same slice with each
name at its stored index; a map holding an index `≥ n` makes the indexed
write go out of range (no defined result); a non-permutation map whose
indices all stay below `n` writes in range instead. -/
theorem c10_indexed_write_defined :
    (∀ (h : Header) (l' : List (Str × Nat)),
      (h.Genotypes.map Prod.snd).Perm (List.range h.Genotypes.length) →
      l'.Perm h.Genotypes →
      placeByIndex l' = writeHeaderSamples h ∧
      ∃ out, writeHeaderSamples h = some out ∧ out.length = h.Genotypes.length ∧
        ∀ p ∈ h.Genotypes, out[p.2]? = some p.1) ∧
    (∀ (f : Feature) (l' : List (Str × Nat)),
      (f.Format.map Prod.snd).Perm (List.range f.Format.length) →
      l'.Perm f.Format →
      placeByIndex l' = writeFeatureFormat f ∧
      ∃ out, writeFeatureFormat f = some out ∧ out.length = f.Format.length ∧
        ∀ p ∈ f.Format, out[p.2]? = some p.1) ∧
    (∀ entries : List (Str × Nat), (∃ p ∈ entries, entries.length ≤ p.2) →
      placeByIndex entries = none) := by
  refine ⟨?_, ?_, ?_⟩
  · intro h l' hperm hl
    exact placeByIndex_perm_spec h.Genotypes l' hperm hl
  · intro f l' hperm hl
    exact placeByIndex_perm_spec f.Format l' hperm hl
  · intro entries hex
    unfold placeByIndex
    apply placeFold_oob
    simpa using hex

/-- C10 counterexample: the map `{a→0, b→0}` is not a permutation of
`{0,1}`, yet no indexed write is out of range — both iteration orders
produce an (order-dependent) in-range result rather than a panic. -/
theorem c10_duplicate_index_not_out_of_range :
    ¬ (([(([ 'a' ] : Str), 0), ([ 'b' ], 0)].map Prod.snd).Perm
        (List.range ([(([ 'a' ] : Str), 0), ([ 'b' ], 0)].length))) ∧
    placeByIndex [([ 'a' ], 0), ([ 'b' ], 0)] = some [[ 'b' ], []] ∧
    placeByIndex [([ 'b' ], 0), ([ 'a' ], 0)] = some [[ 'a' ], []] := by
  refine ⟨by decide, by decide, by decide⟩

/-- C10 witness: the theorem applied to a concrete two-sample header map
`{a→1, b→0}` iterated in the swapped order. -/
theorem c10_indexed_write_defined_witness :
    placeByIndex [([ 'b' ], 0), ([ 'a' ], 1)] =
      writeHeaderSamples { NewHeader with Genotypes := [([ 'a' ], 1), ([ 'b' ], 0)] } :=
  ((c10_indexed_write_defined.1
    { NewHeader with Genotypes := [([ 'a' ], 1), ([ 'b' ], 0)] }
    [([ 'b' ], 0), ([ 'a' ], 1)] (by decide) (by decide))).1

/-- A split at an absent separator returns one piece. -/
theorem splitChar_of_not_mem {c : Char} : ∀ {s : Str}, c ∉ s → splitChar c s = [s] := by
  intro s
  induction s with
  | nil => intro _; rfl
  | cons a as ih =>
    intro h
    have ha : ¬ a = c := fun hac => h (hac ▸ List.mem_cons_self a as)
    have has : c ∉ as := fun hmem => h (List.mem_cons_of_mem a hmem)
    simp only [splitChar, ih has, if_neg ha]

/-- Splitting at the first separator occurrence peels off the prefix. -/
theorem splitChar_append_cons {c : Char} :
    ∀ {a : Str} (b : Str), c ∉ a → splitChar c (a ++ c :: b) = a :: splitChar c b := by
  intro a
  induction a with
  | nil =>
    intro b _
    simp only [List.nil_append, splitChar]
    rcases hr : splitChar c b with _ | ⟨p, ps⟩
    · exact absurd hr (splitChar_ne_nil c b)
    · simp
  | cons x xs ih =>
    intro b h
    have hx : ¬ x = c := fun hxc => h (hxc ▸ List.mem_cons_self x xs)
    have hxs : c ∉ xs := fun hmem => h (List.mem_cons_of_mem x hmem)
    simp only [List.cons_append, splitChar, List.append_eq, ih b hxs, if_neg hx]

/-- Splitting a delimiter-free two-part piece. -/
theorem splitChar_pair {c : Char} {k v : Str} (hk : c ∉ k) (hv : c ∉ v) :
    splitChar c (k ++ c :: v) = [k, v] := by
  rw [splitChar_append_cons v hk, splitChar_of_not_mem hv]

/-- `splitChar` undoes `joinSep` on separator-free pieces. -/
theorem splitChar_joinSep {c : Char} :
    ∀ {ps : List Str}, ps ≠ [] → (∀ p ∈ ps, c ∉ p) →
      splitChar c (joinSep c ps) = ps := by
  intro ps
  induction ps with
  | nil => intro h _; exact absurd rfl h
  | cons p rest ih =>
    intro _ hfree
    cases rest with
    | nil => exact splitChar_of_not_mem (hfree p (List.mem_cons_self _ _))
    | cons q rest' =>
      have : joinSep c (p :: q :: rest') = p ++ c :: joinSep c (q :: rest') := rfl
      rw [this, splitChar_append_cons _ (hfree p (List.mem_cons_self _ _))]
      rw [ih (by simp) (fun r hr => hfree r (List.mem_cons_of_mem p hr))]

/-- The directive body is the comma-terminated pieces; flattening them is
the join plus one trailing comma. -/
theorem flatten_comma_pieces {c : Char} :
    ∀ {ps : List Str}, ps ≠ [] →
      (ps.map (fun p => p ++ [c])).flatten = joinSep c ps ++ [c] := by
  intro ps
  induction ps with
  | nil => intro h; exact absurd rfl h
  | cons p rest ih =>
    intro _
    cases rest with
    | nil => simp [joinSep]
    | cons q rest' =>
      have hrw : joinSep c (p :: q :: rest') = p ++ c :: joinSep c (q :: rest') := rfl
      rw [List.map_cons, List.flatten_cons, ih (by simp), hrw]
      simp

/-- `dropWhile` is the identity when the head fails the predicate. -/
theorem dropWhile_eq_self_of_head {p : Char → Bool} :
    ∀ {l : Str}, (∀ c, l.head? = some c → p c = false) → l.dropWhile p = l := by
  intro l h
  cases l with
  | nil => rfl
  | cons a as =>
    rw [List.dropWhile_cons, if_neg (by simp [h a rfl])]

/-- Right-trimming is the identity when the last element fails the
predicate. -/
theorem reverse_dropWhile_reverse {p : Char → Bool} {l : Str}
    (h : ∀ c, l.getLast? = some c → p c = false) :
    (l.reverse.dropWhile p).reverse = l := by
  have : l.reverse.dropWhile p = l.reverse := by
    apply dropWhile_eq_self_of_head
    intro c hc
    exact h c (by rwa [List.head?_reverse] at hc)
  rw [this, List.reverse_reverse]

/-- The head of a join is the head of its first piece. -/
theorem joinSep_head? {c : Char} {p : Str} (ps : List Str) (hp : p ≠ []) :
    (joinSep c (p :: ps)).head? = p.head? := by
  rcases p with _ | ⟨a, as⟩
  · exact absurd rfl hp
  · cases ps <;> rfl

/-- A join of non-empty pieces is non-empty. -/
theorem joinSep_ne_nil {c : Char} :
    ∀ {ps : List Str}, ps ≠ [] → (∀ p ∈ ps, p ≠ []) → joinSep c ps ≠ [] := by
  intro ps
  induction ps with
  | nil => intro h _; exact absurd rfl h
  | cons p rest _ =>
    intro _ hne
    cases rest with
    | nil => exact hne p (List.mem_cons_self _ _)
    | cons q rest' =>
      have : joinSep c (p :: q :: rest') = p ++ c :: joinSep c (q :: rest') := rfl
      rw [this]
      simp

/-- The last element of a join of non-empty pieces is the last element of
its final piece. -/
theorem joinSep_getLast?_mem {c : Char} :
    ∀ {ps : List Str}, ps ≠ [] → (∀ p ∈ ps, p ≠ []) →
      ∃ p ∈ ps, (joinSep c ps).getLast? = p.getLast? := by
  intro ps
  induction ps with
  | nil => intro h _; exact absurd rfl h
  | cons p rest ih =>
    intro _ hne
    cases rest with
    | nil => exact ⟨p, List.mem_cons_self _ _, rfl⟩
    | cons q rest' =>
      have hrw : joinSep c (p :: q :: rest') = p ++ c :: joinSep c (q :: rest') := rfl
      obtain ⟨r, hr, hlast⟩ := ih (by simp)
        (fun x hx => hne x (List.mem_cons_of_mem p hx))
      refine ⟨r, List.mem_cons_of_mem p hr, ?_⟩
      have hjs : joinSep c (q :: rest') ≠ [] :=
        joinSep_ne_nil (by simp) (fun x hx => hne x (List.mem_cons_of_mem p hx))
      have h1 : (c :: joinSep c (q :: rest')).getLast? = (joinSep c (q :: rest')).getLast? := by
        rcases hj : joinSep c (q :: rest') with _ | ⟨y, ys⟩
        · exact absurd hj hjs
        · simp [List.getLast?_cons]
      rw [hrw, List.getLast?_append, h1, hlast]
      have hrne : r ≠ [] := hne r (List.mem_cons_of_mem p hr)
      rcases hx : r.getLast? with _ | v
      · rcases hrr : r with _ | ⟨y, ys⟩
        · exact absurd hrr hrne
        · rw [hrr] at hx
          simp [List.getLast?_cons] at hx
      · simp

/-- `SplitN(…, 2)` at the first separator occurrence. -/
theorem splitN2_append_of_not_mem {c : Char} :
    ∀ {a : Str} (b : Str), c ∉ a → splitN2 c (a ++ c :: b) = some (a, b) := by
  intro a
  induction a with
  | nil => intro b _; simp [splitN2]
  | cons x xs ih =>
    intro b h
    have hx : ¬ x = c := fun hxc => h (hxc ▸ List.mem_cons_self x xs)
    have hxs : c ∉ xs := fun hmem => h (List.mem_cons_of_mem x hmem)
    simp only [List.cons_append, splitN2, List.append_eq, if_neg hx, ih b hxs, Option.map_some']

/-- Lookup in a key-to-pair mapped list. -/
theorem aget_map_pairs (g : Str → Str) :
    ∀ {l : List Str} {k : Str}, k ∈ l →
      aget (l.map (fun x => (x, g x))) k = some (g k) := by
  intro l
  induction l with
  | nil => intro k hk; cases hk
  | cons x xs ih =>
    intro k hk
    by_cases hx : x = k
    · subst hx
      simp [aget_cons]
    · rcases List.mem_cons.mp hk with rfl | hk'
      · exact absurd rfl hx
      · simp only [List.map_cons, aget_cons, if_neg hx]
        exact ih hk'

/-- With distinct keys, membership determines `aget`. -/
theorem aget_of_mem_nodup {β : Type} :
    ∀ {m : List (Str × β)} {p : Str × β}, (m.map Prod.fst).Nodup → p ∈ m →
      aget m p.1 = some p.2 := by
  intro m
  induction m with
  | nil => intro p _ hp; cases hp
  | cons q rest ih =>
    intro p hnd hp
    rcases List.mem_cons.mp hp with rfl | hp'
    · rcases p with ⟨k, v⟩
      simp [aget_cons]
    · rcases q with ⟨k', v'⟩
      have hk' : ¬ k' = p.1 := by
        intro hcontra
        have : p.1 ∈ rest.map Prod.fst := List.mem_map_of_mem _ hp'
        simp only [List.map_cons, List.nodup_cons] at hnd
        exact hnd.1 (hcontra ▸ this)
      rw [aget_cons, if_neg hk']
      exact ih (by simp only [List.map_cons, List.nodup_cons] at hnd; exact hnd.2) hp'

/-- `TrimLeft` does nothing on a string not starting with the cut
character. -/
theorem trimLeftChar_eq_self {c : Char} {s : Str}
    (h : ∀ x, s.head? = some x → (x = c) = False) : trimLeftChar c s = s := by
  unfold trimLeftChar
  apply dropWhile_eq_self_of_head
  intro x hx
  simp [h x hx]

/-- A successful lookup comes from an entry of the map. -/
theorem aget_eq_some_mem {β : Type} {m : List (Str × β)} {k : Str} {v : β}
    (h : aget m k = some v) : (k, v) ∈ m := by
  simp only [aget, Option.map_eq_some'] at h
  obtain ⟨p, hp, hv⟩ := h
  have hmem := List.mem_of_find?_eq_some hp
  have hkey := List.find?_some hp
  simp only [decide_eq_true_eq] at hkey
  rcases p with ⟨k', v'⟩
  cases hkey
  cases hv
  exact hmem

/-- `emitTyped` in terms of `isRecognized`/`typedValue`, for keys whose
typed value is non-empty when recognized. -/
theorem emitTyped_eq (m : Meta) (b : Str) (k : Str)
    (h : isRecognized k → typedValue m k ≠ []) :
    emitTyped m b k =
      if isRecognized k then b ++ k ++ '=' :: typedValue m k ++ [ ',' ] else b := by
  by_cases h1 : k = kID
  · subst h1
    have hv : m.Id ≠ [] := by simpa [typedValue] using h (by decide)
    simp [emitTyped, typedValue, isRecognized, hv]
  · by_cases h2 : k = kNumber
    · subst h2
      have hv : m.Number ≠ [] := by
        simpa [typedValue, (by decide : (kNumber = kID) = False)] using h (by decide)
      simp [emitTyped, typedValue, isRecognized, hv, h1]
    · by_cases h3 : k = kType
      · subst h3
        have hv : m.Typ ≠ [] := by
          simpa [typedValue, (by decide : (kType = kID) = False),
            (by decide : (kType = kNumber) = False)] using h (by decide)
        simp [emitTyped, typedValue, isRecognized, hv, h1, h2]
      · by_cases h4 : k = kDescription
        · subst h4
          have hv : m.Description ≠ [] := by
            simpa [typedValue, (by decide : (kDescription = kID) = False),
              (by decide : (kDescription = kNumber) = False),
              (by decide : (kDescription = kType) = False)] using h (by decide)
          simp [emitTyped, typedValue, isRecognized, hv, h1, h2, h3]
        · by_cases h5 : k = kURL
          · subst h5
            have hv : m.Url ≠ [] := by
              simpa [typedValue, (by decide : (kURL = kID) = False),
                (by decide : (kURL = kNumber) = False),
                (by decide : (kURL = kType) = False),
                (by decide : (kURL = kDescription) = False)] using h (by decide)
            simp [emitTyped, typedValue, isRecognized, hv, h1, h2, h3, h4]
          · simp [emitTyped, isRecognized, h1, h2, h3, h4, h5]

/-- Closed form of the recognized-key emission loop of `Meta.String`. -/
theorem emitTyped_foldl (m : Meta) :
    ∀ (fo : List Str) (b : Str),
      (∀ k ∈ fo, isRecognized k → typedValue m k ≠ []) →
      fo.foldl (emitTyped m) b =
        b ++ ((fo.filter (fun k => isRecognized k)).map
          (fun k => k ++ '=' :: typedValue m k ++ [ ',' ])).flatten := by
  intro fo
  induction fo with
  | nil => intro b _; simp
  | cons k rest ih =>
    intro b h
    rw [List.foldl_cons, emitTyped_eq m b k (h k (List.mem_cons_self _ _))]
    by_cases hr : isRecognized k
    · rw [if_pos hr, ih _ (fun x hx hrx => h x (List.mem_cons_of_mem _ hx) hrx)]
      simp [List.filter_cons, hr, List.append_assoc]
    · rw [if_neg hr, ih _ (fun x hx hrx => h x (List.mem_cons_of_mem _ hx) hrx)]
      simp [List.filter_cons, hr]

/-- Closed form of `optionalToString`. -/
theorem optionalToString_spec (opt : List (Str × Str)) :
    ∀ fo, optionalToString fo opt =
      ((fo.filter (fun k => (aget opt k).isSome)).map
        (fun k => k ++ '=' :: (aget opt k).getD [] ++ [ ',' ])).flatten := by
  suffices h : ∀ (fo : List Str) (b : Str),
      fo.foldl
        (fun b o =>
          match aget opt o with
          | some val => b ++ o ++ '=' :: val ++ [ ',' ]
          | none => b) b =
      b ++ ((fo.filter (fun k => (aget opt k).isSome)).map
        (fun k => k ++ '=' :: (aget opt k).getD [] ++ [ ',' ])).flatten by
    intro fo
    have := h fo []
    simpa [optionalToString] using this
  intro fo
  induction fo with
  | nil => intro b; simp
  | cons k rest ih =>
    intro b
    rcases hk : aget opt k with _ | v
    · simp only [List.foldl_cons, hk]
      rw [ih b]
      simp [List.filter_cons, hk]
    · simp only [List.foldl_cons, hk]
      rw [ih _]
      simp [List.filter_cons, hk, List.append_assoc]

/-- Unpacking of `ValidDirective` into its propositional parts. -/
theorem vd_unpack {m : Meta} (hv : ValidDirective m = true) :
    (m.FieldOrder ≠ []) ∧ m.FieldOrder.Nodup ∧
    (m.FieldOrder = m.FieldOrder.filter (fun k => isRecognized k) ++
      m.FieldOrder.filter (fun k => ¬ isRecognized k)) ∧
    (∀ k ∈ m.FieldOrder, goodTok k = true ∧ k ≠ kFieldType ∧
      (isRecognized k = true → typedValue m k ≠ [] ∧ goodTok (typedValue m k) = true ∧
        aget m.Optional k = none) ∧
      (isRecognized k = false → (aget m.Optional k).isSome = true)) ∧
    (m.Id = [] ∨ kID ∈ m.FieldOrder) ∧
    (m.Number = [] ∨ kNumber ∈ m.FieldOrder) ∧
    (m.Typ = [] ∨ kType ∈ m.FieldOrder) ∧
    (m.Description = [] ∨ kDescription ∈ m.FieldOrder) ∧
    (m.Url = [] ∨ kURL ∈ m.FieldOrder) ∧
    (m.Optional.map Prod.fst).Nodup ∧
    (∀ p ∈ m.Optional, p.1 ∈ m.FieldOrder ∧ isRecognized p.1 = false ∧
      p.2 ≠ [] ∧ goodTok p.2 = true) ∧
    ('=' ∉ m.FieldType) ∧ (([ '#' ].isPrefixOf m.FieldType) = false) := by
  simp only [ValidDirective, Bool.and_eq_true, decide_eq_true_eq, List.all_eq_true,
    Bool.or_eq_true, Bool.not_eq_true'] at hv
  obtain ⟨⟨⟨⟨⟨⟨⟨⟨⟨⟨⟨⟨h1, h2⟩, h3⟩, h4⟩, h5⟩, h6⟩, h7⟩, h8⟩, h9⟩, h10⟩, h11⟩, h12⟩, h13⟩ := hv
  refine ⟨h1, h2, h3, ?_, h5, h6, h7, h8, h9, h10, ?_, h12, h13⟩
  · intro k hk
    obtain ⟨⟨hg, hne⟩, hif⟩ := h4 k hk
    refine ⟨hg, hne, ?_, ?_⟩
    · intro hr
      rw [if_pos hr] at hif
      simp only [Bool.and_eq_true, decide_eq_true_eq] at hif
      exact ⟨hif.1.1, hif.1.2, hif.2⟩
    · intro hnr
      rw [if_neg (by simp [hnr])] at hif
      exact hif
  · intro p hp
    obtain ⟨⟨⟨ha, hb⟩, hc⟩, hd⟩ := h11 p hp
    exact ⟨ha, hb, hc, hd⟩

/-- Membership from `head?`. -/
theorem mem_of_head_eq : ∀ {l : Str} {c : Char}, l.head? = some c → c ∈ l := by
  intro l c h
  cases l with
  | nil => cases h
  | cons a as =>
    simp only [List.head?_cons, Option.some.injEq] at h
    subst h
    exact List.mem_cons_self a as

/-- Membership from `getLast?`. -/
theorem mem_of_getLast_eq {l : Str} {c : Char} (h : l.getLast? = some c) : c ∈ l := by
  have h2 : l.reverse.head? = some c := by rw [List.head?_reverse]; exact h
  exact List.mem_reverse.mp (mem_of_head_eq h2)

/-- `TrimRight` removes exactly the trailing cut character. -/
theorem trimRightChar_concat {c : Char} {X : Str}
    (h : ∀ x, X.getLast? = some x → (x = c) = False) :
    trimRightChar c (X ++ [c]) = X := by
  unfold trimRightChar
  rw [List.reverse_append]
  simp only [List.reverse_cons, List.reverse_nil, List.nil_append, List.singleton_append]
  have hstep : (c :: X.reverse).dropWhile (fun y => y = c) = X.reverse.dropWhile (fun y => y = c) := by
    rw [List.dropWhile_cons, if_pos (by simp)]
  rw [hstep]
  exact reverse_dropWhile_reverse (by intro x hx; simp [h x hx])

/-- `TrimSpace` does nothing when neither end is whitespace. -/
theorem trimSpace_eq_self {s : Str}
    (hh : ∀ c, s.head? = some c → isGoSpace c = false)
    (hl : ∀ c, s.getLast? = some c → isGoSpace c = false) :
    trimSpace s = s := by
  unfold trimSpace
  rw [dropWhile_eq_self_of_head hh]
  exact reverse_dropWhile_reverse hl

/-- `Trim` with a cutset removes exactly one sandwich layer when the inner
string keeps clear of the cutset at both ends. -/
theorem trimSet_sandwich {cut : List Char} {X : Str} {a b : Char}
    (ha : a ∈ cut) (hb : b ∈ cut) (hne : X ≠ [])
    (hh : ∀ c, X.head? = some c → c ∉ cut)
    (hl : ∀ c, X.getLast? = some c → c ∉ cut) :
    trimSet cut (a :: (X ++ [b])) = X := by
  unfold trimSet
  have h1 : (a :: (X ++ [b])).dropWhile (fun c => decide (c ∈ cut)) = X ++ [b] := by
    rw [List.dropWhile_cons, if_pos (by simp [ha])]
    apply dropWhile_eq_self_of_head
    intro c hc
    rcases hX : X with _ | ⟨x, xs⟩
    · exact absurd hX hne
    · subst hX
      simp only [List.cons_append, List.head?_cons, Option.some.injEq] at hc
      subst hc
      simp [hh x rfl]
  rw [h1, List.reverse_append]
  simp only [List.reverse_cons, List.reverse_nil, List.nil_append, List.singleton_append]
  rw [List.dropWhile_cons, if_pos (by simp [hb])]
  have h2 : X.reverse.dropWhile (fun c => decide (c ∈ cut)) = X.reverse := by
    apply dropWhile_eq_self_of_head
    intro c hc
    rw [List.head?_reverse] at hc
    simp [hl c hc]
  rw [h2, List.reverse_reverse]

/-- Closed form of the sub-field fold of `parseLineToMeta` on well-formed
`key=value` pieces with fresh distinct keys. -/
theorem parseMetaField_foldl (g : Str → Str) :
    ∀ (ks : List Str) (mv : List (Str × Str)) (mo : List Str),
      ks.Nodup → (∀ k ∈ ks, aget mv k = none) →
      (∀ k ∈ ks, '=' ∉ k ∧ '=' ∉ g k) →
      (ks.map (fun k => k ++ '=' :: g k)).foldl parseMetaField (mv, mo) =
        (mv ++ ks.map (fun k => (k, g k)), mo ++ ks) := by
  intro ks
  induction ks with
  | nil => intro mv mo _ _ _; simp
  | cons k rest ih =>
    intro mv mo hnd hfresh hfree
    have hk := hfree k (List.mem_cons_self _ _)
    have hsplit : splitChar '=' (k ++ '=' :: g k) = [k, g k] := splitChar_pair hk.1 hk.2
    have hstep : parseMetaField (mv, mo) (k ++ '=' :: g k) = (mv ++ [(k, g k)], mo ++ [k]) := by
      simp only [parseMetaField, hsplit]
      rw [if_neg (by simp)]
      simp only [List.getD_cons_zero, List.getD_cons_succ]
      rw [mapInsert_of_aget_none _ (hfresh k (List.mem_cons_self _ _))]
    rw [List.map_cons, List.foldl_cons, hstep]
    have hnd' := List.nodup_cons.mp hnd
    rw [ih (mv ++ [(k, g k)]) (mo ++ [k]) hnd'.2 ?_ (fun x hx => hfree x (List.mem_cons_of_mem _ hx))]
    · simp
    · intro x hx
      rw [aget_append, hfresh x (List.mem_cons_of_mem _ hx)]
      have hkx : ¬ k = x := fun hc => hnd'.1 (hc ▸ hx)
      simp [aget_cons, hkx, aget]

/-- Repeated `mapInsert` of fresh distinct keys appends the pairs in
order. -/
theorem foldl_mapInsert_fresh (g : Str → Str) :
    ∀ (ks : List Str) (o : List (Str × Str)), ks.Nodup → (∀ k ∈ ks, aget o k = none) →
      ks.foldl (fun o k => mapInsert o k (g k)) o = o ++ ks.map (fun k => (k, g k)) := by
  intro ks
  induction ks with
  | nil => intro o _ _; simp
  | cons k rest ih =>
    intro o hnd hfresh
    rw [List.foldl_cons, mapInsert_of_aget_none _ (hfresh k (List.mem_cons_self _ _))]
    have hnd' := List.nodup_cons.mp hnd
    rw [ih (o ++ [(k, g k)]) hnd'.2 ?_]
    · simp
    · intro x hx
      rw [aget_append, hfresh x (List.mem_cons_of_mem _ hx)]
      have hkx : ¬ k = x := fun hc => hnd'.1 (hc ▸ hx)
      simp [aget_cons, hkx, aget]

/-- `assignMetaField` and the `FieldType` field. -/
theorem assignMetaField_FieldType (mv : List (Str × Str)) (st : Meta) (k : Str) :
    (assignMetaField mv st k).FieldType = if k = kFieldType then agetD mv k else st.FieldType := by
  unfold assignMetaField
  split_ifs <;> rfl

/-- `assignMetaField` and the `Id` field. -/
theorem assignMetaField_Id (mv : List (Str × Str)) (st : Meta) (k : Str) :
    (assignMetaField mv st k).Id = if k = kID then agetD mv k else st.Id := by
  unfold assignMetaField
  split_ifs <;> first | rfl | (subst_vars; simp_all +decide)

/-- `assignMetaField` and the `Number` field. -/
theorem assignMetaField_Number (mv : List (Str × Str)) (st : Meta) (k : Str) :
    (assignMetaField mv st k).Number = if k = kNumber then agetD mv k else st.Number := by
  unfold assignMetaField
  split_ifs <;> first | rfl | (subst_vars; simp_all +decide)

/-- `assignMetaField` and the `Type` field. -/
theorem assignMetaField_Typ (mv : List (Str × Str)) (st : Meta) (k : Str) :
    (assignMetaField mv st k).Typ = if k = kType then agetD mv k else st.Typ := by
  unfold assignMetaField
  split_ifs <;> first | rfl | (subst_vars; simp_all +decide)

/-- `assignMetaField` and the `Description` field. -/
theorem assignMetaField_Description (mv : List (Str × Str)) (st : Meta) (k : Str) :
    (assignMetaField mv st k).Description =
      if k = kDescription then agetD mv k else st.Description := by
  unfold assignMetaField
  split_ifs <;> first | rfl | (subst_vars; simp_all +decide)

/-- `assignMetaField` and the `Url` field. -/
theorem assignMetaField_Url (mv : List (Str × Str)) (st : Meta) (k : Str) :
    (assignMetaField mv st k).Url = if k = kURL then agetD mv k else st.Url := by
  unfold assignMetaField
  split_ifs <;> first | rfl | (subst_vars; simp_all +decide)

/-- `assignMetaField` never touches `FieldOrder`. -/
theorem assignMetaField_FieldOrder (mv : List (Str × Str)) (st : Meta) (k : Str) :
    (assignMetaField mv st k).FieldOrder = st.FieldOrder := by
  unfold assignMetaField
  split_ifs <;> rfl

/-- `assignMetaField` and the `Optional` map. -/
theorem assignMetaField_Optional (mv : List (Str × Str)) (st : Meta) (k : Str) :
    (assignMetaField mv st k).Optional =
      if k = kFieldType ∨ isRecognized k = true then st.Optional
      else mapInsert st.Optional k (agetD mv k) := by
  unfold assignMetaField
  split_ifs <;> first | rfl | (subst_vars; simp_all +decide [isRecognized])

/-- The `load meta struct` fold and the `FieldType` field. -/
theorem foldl_assign_FieldType (mv : List (Str × Str)) :
    ∀ (ks : List Str) (st : Meta),
      (ks.foldl (assignMetaField mv) st).FieldType =
        if kFieldType ∈ ks then agetD mv kFieldType else st.FieldType := by
  intro ks
  induction ks with
  | nil => intro st; simp
  | cons k rest ih =>
    intro st
    rw [List.foldl_cons, ih, assignMetaField_FieldType]
    by_cases h1 : kFieldType ∈ rest
    · simp [h1, List.mem_cons]
    · by_cases h2 : k = kFieldType
      · subst h2; simp [h1, List.mem_cons]
      · simp [h1, h2, List.mem_cons, Ne.symm h2]

/-- The `load meta struct` fold and the `Id` field. -/
theorem foldl_assign_Id (mv : List (Str × Str)) :
    ∀ (ks : List Str) (st : Meta),
      (ks.foldl (assignMetaField mv) st).Id = if kID ∈ ks then agetD mv kID else st.Id := by
  intro ks
  induction ks with
  | nil => intro st; simp
  | cons k rest ih =>
    intro st
    rw [List.foldl_cons, ih, assignMetaField_Id]
    by_cases h1 : kID ∈ rest
    · simp [h1, List.mem_cons]
    · by_cases h2 : k = kID
      · subst h2; simp [h1, List.mem_cons]
      · simp [h1, h2, List.mem_cons, Ne.symm h2]

/-- The `load meta struct` fold and the `Number` field. -/
theorem foldl_assign_Number (mv : List (Str × Str)) :
    ∀ (ks : List Str) (st : Meta),
      (ks.foldl (assignMetaField mv) st).Number =
        if kNumber ∈ ks then agetD mv kNumber else st.Number := by
  intro ks
  induction ks with
  | nil => intro st; simp
  | cons k rest ih =>
    intro st
    rw [List.foldl_cons, ih, assignMetaField_Number]
    by_cases h1 : kNumber ∈ rest
    · simp [h1, List.mem_cons]
    · by_cases h2 : k = kNumber
      · subst h2; simp [h1, List.mem_cons]
      · simp [h1, h2, List.mem_cons, Ne.symm h2]

/-- The `load meta struct` fold and the `Type` field. -/
theorem foldl_assign_Typ (mv : List (Str × Str)) :
    ∀ (ks : List Str) (st : Meta),
      (ks.foldl (assignMetaField mv) st).Typ = if kType ∈ ks then agetD mv kType else st.Typ := by
  intro ks
  induction ks with
  | nil => intro st; simp
  | cons k rest ih =>
    intro st
    rw [List.foldl_cons, ih, assignMetaField_Typ]
    by_cases h1 : kType ∈ rest
    · simp [h1, List.mem_cons]
    · by_cases h2 : k = kType
      · subst h2; simp [h1, List.mem_cons]
      · simp [h1, h2, List.mem_cons, Ne.symm h2]

/-- The `load meta struct` fold and the `Description` field. -/
theorem foldl_assign_Description (mv : List (Str × Str)) :
    ∀ (ks : List Str) (st : Meta),
      (ks.foldl (assignMetaField mv) st).Description =
        if kDescription ∈ ks then agetD mv kDescription else st.Description := by
  intro ks
  induction ks with
  | nil => intro st; simp
  | cons k rest ih =>
    intro st
    rw [List.foldl_cons, ih, assignMetaField_Description]
    by_cases h1 : kDescription ∈ rest
    · simp [h1, List.mem_cons]
    · by_cases h2 : k = kDescription
      · subst h2; simp [h1, List.mem_cons]
      · simp [h1, h2, List.mem_cons, Ne.symm h2]

/-- The `load meta struct` fold and the `Url` field. -/
theorem foldl_assign_Url (mv : List (Str × Str)) :
    ∀ (ks : List Str) (st : Meta),
      (ks.foldl (assignMetaField mv) st).Url = if kURL ∈ ks then agetD mv kURL else st.Url := by
  intro ks
  induction ks with
  | nil => intro st; simp
  | cons k rest ih =>
    intro st
    rw [List.foldl_cons, ih, assignMetaField_Url]
    by_cases h1 : kURL ∈ rest
    · simp [h1, List.mem_cons]
    · by_cases h2 : k = kURL
      · subst h2; simp [h1, List.mem_cons]
      · simp [h1, h2, List.mem_cons, Ne.symm h2]

/-- The `load meta struct` fold and `FieldOrder`. -/
theorem foldl_assign_FieldOrder (mv : List (Str × Str)) :
    ∀ (ks : List Str) (st : Meta),
      (ks.foldl (assignMetaField mv) st).FieldOrder = st.FieldOrder := by
  intro ks
  induction ks with
  | nil => intro st; rfl
  | cons k rest ih =>
    intro st
    rw [List.foldl_cons, ih, assignMetaField_FieldOrder]

/-- The `load meta struct` fold and the `Optional` map: the unrecognized
keys are inserted in order. -/
theorem foldl_assign_Optional (mv : List (Str × Str)) :
    ∀ (ks : List Str) (st : Meta),
      (ks.foldl (assignMetaField mv) st).Optional =
        (ks.filter (fun k => !(decide (k = kFieldType)) && !(isRecognized k))).foldl
          (fun o k => mapInsert o k (agetD mv k)) st.Optional := by
  intro ks
  induction ks with
  | nil => intro st; rfl
  | cons k rest ih =>
    intro st
    rw [List.foldl_cons, ih, assignMetaField_Optional]
    by_cases hk : k = kFieldType ∨ isRecognized k = true
    · have hp : (!(decide (k = kFieldType)) && !(isRecognized k)) = false := by
        rcases hk with h | h
        · simp [h]
        · simp [h]
      rw [if_pos hk, List.filter_cons, if_neg (by simp [hp])]
    · push_neg at hk
      have hp : (!(decide (k = kFieldType)) && !(isRecognized k)) = true := by
        simp [hk.1, hk.2]
      rw [if_neg (by push_neg; exact hk), List.filter_cons, if_pos (by simp [hp]), List.foldl_cons]

/-- Characters of a good token avoid the four wire delimiters. -/
theorem goodTok_mem {s : Str} (h : goodTok s = true) {c : Char} (hc : c ∈ s) :
    ¬ (c = '=' ∨ c = ',' ∨ c = '<' ∨ c = '>') := by
  simp only [goodTok, List.all_eq_true, decide_eq_true_eq] at h
  exact h c hc

/-- Every `FieldOrder` key of a valid directive carries a non-empty
delimiter-free value. -/
theorem valOf_facts {m : Meta} (hv : ValidDirective m = true) :
    ∀ k ∈ m.FieldOrder, valOf m k ≠ [] ∧ goodTok (valOf m k) = true := by
  obtain ⟨h1, h2, h3, h4, h5, h6, h7, h8, h9, h10, h11, h12, h13⟩ := vd_unpack hv
  intro k hk
  obtain ⟨hg, hne, hrec, hnrec⟩ := h4 k hk
  by_cases hr : isRecognized k = true
  · obtain ⟨hv1, hv2, _⟩ := hrec hr
    exact ⟨by simpa [valOf, hr] using hv1, by simpa [valOf, hr] using hv2⟩
  · have hb : isRecognized k = false := by revert hr; cases isRecognized k <;> simp
    obtain ⟨v, hvv⟩ := Option.isSome_iff_exists.mp (hnrec hb)
    have hfacts := h11 (k, v) (aget_eq_some_mem hvv)
    constructor
    · simpa [valOf, hb, hvv] using hfacts.2.2.1
    · simpa [valOf, hb, hvv] using hfacts.2.2.2

/-- The serialized `key=value` pieces of a valid directive are non-empty
and avoid the separators and brackets. -/
theorem piece_chars {m : Meta} (hv : ValidDirective m = true) :
    ∀ p ∈ m.FieldOrder.map (fun k => k ++ '=' :: valOf m k),
      p ≠ [] ∧ ∀ x ∈ p, x ≠ ',' ∧ x ≠ '<' ∧ x ≠ '>' := by
  obtain ⟨h1, h2, h3, h4, h5, h6, h7, h8, h9, h10, h11, h12, h13⟩ := vd_unpack hv
  intro p hp
  obtain ⟨k, hk, rfl⟩ := List.mem_map.mp hp
  refine ⟨by simp, ?_⟩
  intro x hx
  rcases List.mem_append.mp hx with hxk | hxv
  · have := goodTok_mem (h4 k hk).1 hxk
    push_neg at this
    exact ⟨this.2.1, this.2.2.1, this.2.2.2⟩
  · rcases List.mem_cons.mp hxv with rfl | hxv'
    · refine ⟨by decide, by decide, by decide⟩
    · have := goodTok_mem (valOf_facts hv k hk).2 hxv'
      push_neg at this
      exact ⟨this.2.1, this.2.2.1, this.2.2.2⟩

/-- Closed form of `Meta.String` on a valid directive: the key=value
pieces of `FieldOrder`, comma-joined, inside `##FieldType=<...>`. -/
theorem metaString_spec (m : Meta) (hv : ValidDirective m = true) :
    metaString m = [ '#', '#' ] ++ m.FieldType ++ '=' :: '<' ::
      (joinSep ',' (m.FieldOrder.map (fun k => k ++ '=' :: valOf m k)) ++ [ '>' ]) := by
  obtain ⟨h1, h2, h3, h4, h5, h6, h7, h8, h9, h10, h11, h12, h13⟩ := vd_unpack hv
  have hbody : m.FieldOrder.foldl (emitTyped m) [] =
      ((m.FieldOrder.filter (fun k => isRecognized k)).map
        (fun k => (k ++ '=' :: valOf m k) ++ [ ',' ])).flatten := by
    rw [emitTyped_foldl m m.FieldOrder [] (fun k hk hr => ((h4 k hk).2.2.1 hr).1)]
    simp only [List.nil_append]
    refine congrArg List.flatten (List.map_congr_left ?_)
    intro k hk
    have hr : isRecognized k = true := by simpa using List.of_mem_filter hk
    simp [valOf, hr, List.append_assoc]
  have hopt : optionalToString m.FieldOrder m.Optional =
      ((m.FieldOrder.filter (fun k => ¬ isRecognized k)).map
        (fun k => (k ++ '=' :: valOf m k) ++ [ ',' ])).flatten := by
    rw [optionalToString_spec]
    have hfe : m.FieldOrder.filter (fun k => (aget m.Optional k).isSome) =
        m.FieldOrder.filter (fun k => ¬ isRecognized k) := by
      apply List.filter_congr
      intro k hk
      obtain ⟨hg, hne, hrec, hnrec⟩ := h4 k hk
      by_cases hr : isRecognized k = true
      · have hnone := (hrec hr).2.2
        simp [hnone, hr]
      · have hb : isRecognized k = false := by revert hr; cases isRecognized k <;> simp
        simp [hnrec hb, hb]
    rw [hfe]
    refine congrArg List.flatten (List.map_congr_left ?_)
    intro k hk
    have hnr := List.of_mem_filter hk
    simp only [decide_eq_true_eq] at hnr
    have hb : isRecognized k = false := by revert hnr; cases isRecognized k <;> simp
    simp [valOf, hb, List.append_assoc]
  have hsplit2 : m.FieldOrder.map (fun k => (k ++ '=' :: valOf m k) ++ [ ',' ]) =
      (m.FieldOrder.filter (fun k => isRecognized k)).map
        (fun k => (k ++ '=' :: valOf m k) ++ [ ',' ]) ++
      (m.FieldOrder.filter (fun k => ¬ isRecognized k)).map
        (fun k => (k ++ '=' :: valOf m k) ++ [ ',' ]) := by
    conv_lhs => rw [h3]
    rw [List.map_append]
  have hbody2 : (if m.Optional ≠ [] then
        (m.FieldOrder.foldl (emitTyped m) []) ++ optionalToString m.FieldOrder m.Optional
      else m.FieldOrder.foldl (emitTyped m) []) =
      (m.FieldOrder.map (fun k => (k ++ '=' :: valOf m k) ++ [ ',' ])).flatten := by
    by_cases hO : m.Optional = []
    · rw [if_neg (by simp [hO])]
      have hall : m.FieldOrder.filter (fun k => ¬ isRecognized k) = [] := by
        rw [List.filter_eq_nil_iff]
        intro k hk
        simp only [decide_eq_true_eq, Decidable.not_not]
        obtain ⟨hg, hne, hrec, hnrec⟩ := h4 k hk
        by_contra hb'
        have hb : isRecognized k = false := by revert hb'; cases isRecognized k <;> simp
        have := hnrec hb
        rw [hO] at this
        simp [aget] at this
      rw [hbody, hsplit2, hall]
      simp
    · rw [if_pos hO, hbody, hopt, hsplit2, List.flatten_append]
  have hps : (m.FieldOrder.map (fun k => (k ++ '=' :: valOf m k) ++ [ ',' ])).flatten =
      joinSep ',' (m.FieldOrder.map (fun k => k ++ '=' :: valOf m k)) ++ [ ',' ] := by
    rw [← flatten_comma_pieces (by simp [h1])]
    congr 1
    rw [List.map_map]
    rfl
  have htrim : trimRightChar ','
      (joinSep ',' (m.FieldOrder.map (fun k => k ++ '=' :: valOf m k)) ++ [ ',' ]) =
      joinSep ',' (m.FieldOrder.map (fun k => k ++ '=' :: valOf m k)) := by
    apply trimRightChar_concat
    intro x hx
    obtain ⟨p, hp, hlast⟩ := joinSep_getLast?_mem (by simp [h1])
      (fun p hp => (piece_chars hv p hp).1)
    rw [hlast] at hx
    have := (piece_chars hv p hp).2 x (mem_of_getLast_eq hx)
    simp [this.1]
  simp only [metaString]
  rw [if_neg h1, hbody2, hps, htrim]
  simp [List.cons_append, List.append_assoc]

/-- Characters of a join are the separator or characters of the pieces. -/
theorem mem_joinSep {sep : Char} :
    ∀ {ps : List Str} {c : Char}, c ∈ joinSep sep ps → c = sep ∨ ∃ p ∈ ps, c ∈ p := by
  intro ps
  induction ps with
  | nil => intro c hc; exact absurd hc (by simp [joinSep])
  | cons p rest ih =>
    intro c hc
    cases rest with
    | nil => exact Or.inr ⟨p, List.mem_cons_self _ _, hc⟩
    | cons q rest' =>
      have hrw : joinSep sep (p :: q :: rest') = p ++ sep :: joinSep sep (q :: rest') := rfl
      rw [hrw] at hc
      rcases List.mem_append.mp hc with h | h
      · exact Or.inr ⟨p, List.mem_cons_self _ _, h⟩
      · rcases List.mem_cons.mp h with rfl | h'
        · exact Or.inl rfl
        · rcases ih h' with h'' | ⟨r, hr, hcr⟩
          · exact Or.inl h''
          · exact Or.inr ⟨r, List.mem_cons_of_mem _ hr, hcr⟩

/-- Reading the serialized valid directive recovers the key/value map, the
key order, and the structured flag. -/
theorem parseLineToMeta_metaString (m : Meta) (hv : ValidDirective m = true) :
    parseLineToMeta (metaString m) =
      some ((kFieldType, m.FieldType) :: m.FieldOrder.map (fun k => (k, valOf m k)),
        kFieldType :: m.FieldOrder, true) := by
  obtain ⟨h1, h2, h3, h4, h5, h6, h7, h8, h9, h10, h11, h12, h13⟩ := vd_unpack hv
  have hFThead : ∀ x, m.FieldType.head? = some x → (x = '#') = False := by
    intro x hx
    rcases hFT : m.FieldType with _ | ⟨a, as⟩
    · rw [hFT] at hx; cases hx
    · rw [hFT] at hx
      simp only [List.head?_cons, Option.some.injEq] at hx
      subst hx
      rw [hFT] at h13
      simp [List.isPrefixOf] at h13
      exact eq_false (fun hc => h13 hc.symm)
  have hpne : ∀ p ∈ m.FieldOrder.map (fun k => k ++ '=' :: valOf m k), p ≠ [] :=
    fun p hp => (piece_chars hv p hp).1
  have hpsne : m.FieldOrder.map (fun k => k ++ '=' :: valOf m k) ≠ [] := by simp [h1]
  have hJne : joinSep ',' (m.FieldOrder.map (fun k => k ++ '=' :: valOf m k)) ≠ [] :=
    joinSep_ne_nil hpsne hpne
  have hJmem : ∀ c ∈ joinSep ',' (m.FieldOrder.map (fun k => k ++ '=' :: valOf m k)),
      c ≠ '<' ∧ c ≠ '>' := by
    intro c hc
    rcases mem_joinSep hc with rfl | ⟨p, hp, hcp⟩
    · exact ⟨by decide, by decide⟩
    · have hfacts := (piece_chars hv p hp).2 c hcp
      exact ⟨hfacts.2.1, hfacts.2.2⟩
  have hts : trimSpace ([ '#', '#' ] ++ m.FieldType ++ '=' :: '<' ::
      (joinSep ',' (m.FieldOrder.map (fun k => k ++ '=' :: valOf m k)) ++ [ '>' ])) =
      [ '#', '#' ] ++ m.FieldType ++ '=' :: '<' ::
        (joinSep ',' (m.FieldOrder.map (fun k => k ++ '=' :: valOf m k)) ++ [ '>' ]) := by
    apply trimSpace_eq_self
    · intro c hc
      simp only [List.cons_append, List.head?_cons, Option.some.injEq] at hc
      subst hc
      decide
    · intro c hc
      rw [show ([ '#', '#' ] : Str) ++ m.FieldType ++ '=' :: '<' ::
          (joinSep ',' (m.FieldOrder.map (fun k => k ++ '=' :: valOf m k)) ++ [ '>' ]) =
          ([ '#', '#' ] ++ m.FieldType ++ '=' :: '<' ::
            joinSep ',' (m.FieldOrder.map (fun k => k ++ '=' :: valOf m k))) ++ [ '>' ]
          from by simp [List.append_assoc, List.cons_append], List.getLast?_concat] at hc
      simp only [Option.some.injEq] at hc
      subst hc
      decide
  have htl : trimLeftChar '#' ([ '#', '#' ] ++ m.FieldType ++ '=' :: '<' ::
      (joinSep ',' (m.FieldOrder.map (fun k => k ++ '=' :: valOf m k)) ++ [ '>' ])) =
      m.FieldType ++ '=' :: '<' ::
        (joinSep ',' (m.FieldOrder.map (fun k => k ++ '=' :: valOf m k)) ++ [ '>' ]) := by
    show List.dropWhile (fun c => c = '#') ('#' :: '#' :: (m.FieldType ++ '=' :: '<' ::
      (joinSep ',' (m.FieldOrder.map (fun k => k ++ '=' :: valOf m k)) ++ [ '>' ]))) = _
    rw [List.dropWhile_cons, if_pos (by simp), List.dropWhile_cons, if_pos (by simp)]
    apply dropWhile_eq_self_of_head
    intro c hc
    rcases hFT : m.FieldType with _ | ⟨a, as⟩
    · rw [hFT] at hc
      simp only [List.nil_append, List.head?_cons, Option.some.injEq] at hc
      subst hc
      decide
    · rw [hFT] at hc
      simp only [List.cons_append, List.head?_cons, Option.some.injEq] at hc
      have hne := hFThead a (by rw [hFT]; rfl)
      subst hc
      simp [hne]
  have hsn : splitN2 '=' (m.FieldType ++ '=' :: '<' ::
      (joinSep ',' (m.FieldOrder.map (fun k => k ++ '=' :: valOf m k)) ++ [ '>' ])) =
      some (m.FieldType, '<' ::
        (joinSep ',' (m.FieldOrder.map (fun k => k ++ '=' :: valOf m k)) ++ [ '>' ])) :=
    splitN2_append_of_not_mem _ h12
  have hts2 : trimSpace ('<' ::
      (joinSep ',' (m.FieldOrder.map (fun k => k ++ '=' :: valOf m k)) ++ [ '>' ])) =
      '<' :: (joinSep ',' (m.FieldOrder.map (fun k => k ++ '=' :: valOf m k)) ++ [ '>' ]) := by
    apply trimSpace_eq_self
    · intro c hc
      simp only [List.head?_cons, Option.some.injEq] at hc
      subst hc
      decide
    · intro c hc
      rw [show ('<' :: (joinSep ',' (m.FieldOrder.map (fun k => k ++ '=' :: valOf m k)) ++ [ '>' ])) =
          ('<' :: joinSep ',' (m.FieldOrder.map (fun k => k ++ '=' :: valOf m k))) ++ [ '>' ]
          from by simp, List.getLast?_concat] at hc
      simp only [Option.some.injEq] at hc
      subst hc
      decide
  have htset : trimSet [ '<', '>' ] ('<' ::
      (joinSep ',' (m.FieldOrder.map (fun k => k ++ '=' :: valOf m k)) ++ [ '>' ])) =
      joinSep ',' (m.FieldOrder.map (fun k => k ++ '=' :: valOf m k)) := by
    apply trimSet_sandwich (by simp) (by simp) hJne
    · intro c hc
      have := hJmem c (mem_of_head_eq hc)
      simp [this.1, this.2]
    · intro c hc
      have := hJmem c (mem_of_getLast_eq hc)
      simp [this.1, this.2]
  have hsc : splitChar ',' (joinSep ',' (m.FieldOrder.map (fun k => k ++ '=' :: valOf m k))) =
      m.FieldOrder.map (fun k => k ++ '=' :: valOf m k) :=
    splitChar_joinSep hpsne (fun p hp hc => ((piece_chars hv p hp).2 ',' hc).1 rfl)
  have htlf : trimLeftChar '#' m.FieldType = m.FieldType := trimLeftChar_eq_self hFThead
  have hfold : (m.FieldOrder.map (fun k => k ++ '=' :: valOf m k)).foldl parseMetaField
      ([(kFieldType, m.FieldType)], [kFieldType]) =
      ([(kFieldType, m.FieldType)] ++ m.FieldOrder.map (fun k => (k, valOf m k)),
        [kFieldType] ++ m.FieldOrder) := by
    apply parseMetaField_foldl (valOf m) m.FieldOrder _ _ h2
    · intro k hk
      rw [aget_cons, if_neg (fun hc => (h4 k hk).2.1 hc.symm)]
      rfl
    · intro k hk
      constructor
      · exact fun hc => goodTok_mem (h4 k hk).1 hc (Or.inl rfl)
      · exact fun hc => goodTok_mem (valOf_facts hv k hk).2 hc (Or.inl rfl)
  rw [metaString_spec m hv]
  simp only [parseLineToMeta, hts, htl, hsn, hts2, htset, hsc, htlf]
  rw [show mapInsert ([] : List (Str × Str)) kFieldType m.FieldType =
    [(kFieldType, m.FieldType)] from by simp [mapInsert]]
  simp [List.isPrefixOf, hfold]

/-- Assembling the reparsed key/value map of a valid directive rebuilds a
`Meta` that `reflect.DeepEqual` cannot tell from the original. -/
theorem buildMeta_metaString_eq (m : Meta) (hv : ValidDirective m = true) :
    MetaEqb (buildMeta ((kFieldType, m.FieldType) :: m.FieldOrder.map (fun k => (k, valOf m k)))
      (kFieldType :: m.FieldOrder)) m = true := by
  obtain ⟨h1, h2, h3, h4, h5, h6, h7, h8, h9, h10, h11, h12, h13⟩ := vd_unpack hv
  set mvE := (kFieldType, m.FieldType) :: m.FieldOrder.map (fun k => (k, valOf m k)) with hmvE
  have hmv : ∀ k ∈ m.FieldOrder, agetD mvE k = valOf m k := by
    intro k hk
    unfold agetD
    rw [hmvE, aget_cons, if_neg (fun hc => (h4 k hk).2.1 hc.symm), aget_map_pairs _ hk]
    rfl
  have hmvFT : agetD mvE kFieldType = m.FieldType := by
    unfold agetD
    rw [hmvE, aget_cons, if_pos rfl]
    rfl
  have hFTfact : (buildMeta mvE (kFieldType :: m.FieldOrder)).FieldType = m.FieldType := by
    simp only [buildMeta]
    rw [foldl_assign_FieldType, if_pos (List.mem_cons_self _ _), hmvFT]
  have hIdfact : (buildMeta mvE (kFieldType :: m.FieldOrder)).Id = m.Id := by
    simp only [buildMeta]
    rw [foldl_assign_Id]
    by_cases hk : kID ∈ m.FieldOrder
    · rw [if_pos (List.mem_cons_of_mem _ hk), hmv kID hk]
      simp [valOf, (by decide : isRecognized kID = true), typedValue]
    · rw [if_neg (by simp [List.mem_cons, hk, (by decide : (kID = kFieldType) = False)])]
      rcases h5 with h | h
      · simp [h]
      · exact absurd h hk
  have hNumfact : (buildMeta mvE (kFieldType :: m.FieldOrder)).Number = m.Number := by
    simp only [buildMeta]
    rw [foldl_assign_Number]
    by_cases hk : kNumber ∈ m.FieldOrder
    · rw [if_pos (List.mem_cons_of_mem _ hk), hmv kNumber hk]
      simp [valOf, (by decide : isRecognized kNumber = true), typedValue,
        (by decide : (kNumber = kID) = False)]
    · rw [if_neg (by simp [List.mem_cons, hk, (by decide : (kNumber = kFieldType) = False)])]
      rcases h6 with h | h
      · simp [h]
      · exact absurd h hk
  have hTypfact : (buildMeta mvE (kFieldType :: m.FieldOrder)).Typ = m.Typ := by
    simp only [buildMeta]
    rw [foldl_assign_Typ]
    by_cases hk : kType ∈ m.FieldOrder
    · rw [if_pos (List.mem_cons_of_mem _ hk), hmv kType hk]
      simp [valOf, (by decide : isRecognized kType = true), typedValue,
        (by decide : (kType = kID) = False), (by decide : (kType = kNumber) = False)]
    · rw [if_neg (by simp [List.mem_cons, hk, (by decide : (kType = kFieldType) = False)])]
      rcases h7 with h | h
      · simp [h]
      · exact absurd h hk
  have hDescfact : (buildMeta mvE (kFieldType :: m.FieldOrder)).Description = m.Description := by
    simp only [buildMeta]
    rw [foldl_assign_Description]
    by_cases hk : kDescription ∈ m.FieldOrder
    · rw [if_pos (List.mem_cons_of_mem _ hk), hmv kDescription hk]
      simp [valOf, (by decide : isRecognized kDescription = true), typedValue,
        (by decide : (kDescription = kID) = False), (by decide : (kDescription = kNumber) = False),
        (by decide : (kDescription = kType) = False)]
    · rw [if_neg (by simp [List.mem_cons, hk,
        (by decide : (kDescription = kFieldType) = False)])]
      rcases h8 with h | h
      · simp [h]
      · exact absurd h hk
  have hUrlfact : (buildMeta mvE (kFieldType :: m.FieldOrder)).Url = m.Url := by
    simp only [buildMeta]
    rw [foldl_assign_Url]
    by_cases hk : kURL ∈ m.FieldOrder
    · rw [if_pos (List.mem_cons_of_mem _ hk), hmv kURL hk]
      simp [valOf, (by decide : isRecognized kURL = true), typedValue,
        (by decide : (kURL = kID) = False), (by decide : (kURL = kNumber) = False),
        (by decide : (kURL = kType) = False), (by decide : (kURL = kDescription) = False)]
    · rw [if_neg (by simp [List.mem_cons, hk, (by decide : (kURL = kFieldType) = False)])]
      rcases h9 with h | h
      · simp [h]
      · exact absurd h hk
  have hFOfact : (buildMeta mvE (kFieldType :: m.FieldOrder)).FieldOrder = m.FieldOrder := by
    simp only [buildMeta]
    rw [foldl_assign_FieldOrder]
    rfl
  have hOptfact : (buildMeta mvE (kFieldType :: m.FieldOrder)).Optional =
      (m.FieldOrder.filter (fun k => !(isRecognized k))).map (fun k => (k, valOf m k)) := by
    simp only [buildMeta]
    rw [foldl_assign_Optional]
    rw [List.filter_cons, if_neg (by simp)]
    have hfc : m.FieldOrder.filter (fun k => !(decide (k = kFieldType)) && !(isRecognized k)) =
        m.FieldOrder.filter (fun k => !(isRecognized k)) := by
      apply List.filter_congr
      intro k hk
      simp [(h4 k hk).2.1]
    rw [hfc]
    show (m.FieldOrder.filter (fun k => !(isRecognized k))).foldl
        (fun o k => mapInsert o k (agetD mvE k)) [] =
      (m.FieldOrder.filter (fun k => !(isRecognized k))).map (fun k => (k, valOf m k))
    rw [foldl_mapInsert_fresh (agetD mvE) _ [] (h2.filter _) (fun k _ => rfl)]
    rw [List.nil_append]
    apply List.map_congr_left
    intro k hk
    rw [hmv k (List.mem_of_mem_filter hk)]
  have hmapeq : mapEqb ((m.FieldOrder.filter (fun k => !(isRecognized k))).map
      (fun k => (k, valOf m k))) m.Optional = true := by
    simp only [mapEqb, Bool.and_eq_true, List.all_eq_true, decide_eq_true_eq]
    constructor
    · intro p hp
      obtain ⟨k, hk, rfl⟩ := List.mem_map.mp hp
      have hkF := List.mem_of_mem_filter hk
      have hnr := List.of_mem_filter hk
      simp only [Bool.not_eq_true'] at hnr
      obtain ⟨v, hvv⟩ := Option.isSome_iff_exists.mp ((h4 k hkF).2.2.2 hnr)
      have : valOf m k = v := by simp [valOf, hnr, hvv]
      rw [this]
      exact hvv
    · intro q hq
      have hfacts := h11 q hq
      have hqf : q.1 ∈ m.FieldOrder.filter (fun k => !(isRecognized k)) :=
        List.mem_filter.mpr ⟨hfacts.1, by simp [hfacts.2.1]⟩
      rw [aget_map_pairs _ hqf]
      have hvq : valOf m q.1 = q.2 := by
        have haq : aget m.Optional q.1 = some q.2 := aget_of_mem_nodup h10 hq
        simp [valOf, hfacts.2.1, haq]
      rw [hvq]
  simp only [MetaEqb, hFTfact, hIdfact, hNumfact, hTypfact, hDescfact, hUrlfact, hFOfact,
    hOptfact, hmapeq, decide_eq_true_eq]
  simp

/-- C3 (amended): for a structured directive whose explicit, duplicate-free
`FieldOrder` lists the recognized keys before the `Optional` ones, with all
stored values non-empty and keys and values free of the wire delimiters,
serializing with `Meta.String` and re-reading the line through
`parseLineToMeta` plus the `load meta struct` assembly yields a `Meta`
that `reflect.DeepEqual` cannot tell from the original. -/
theorem c3_directive_round_trip (m : Meta) (hv : ValidDirective m = true) :
    ∃ m2, reparseMeta (metaString m) = some m2 ∧ MetaEqb m2 m = true :=
  ⟨buildMeta ((kFieldType, m.FieldType) :: m.FieldOrder.map (fun k => (k, valOf m k)))
      (kFieldType :: m.FieldOrder),
    by simp only [reparseMeta, parseLineToMeta_metaString m hv],
    buildMeta_metaString_eq m hv⟩

/-- C3 counterexample: a directive whose `FieldOrder` interleaves an
`Optional` key between recognized ones serializes with the recognized keys
first (the writer's switch skips unrecognized keys and re-emits them only
through `optionalToString`), so the reparsed `FieldOrder` differs and the
round-trip is not the identity. -/
theorem c3_interleaved_order_not_roundtripped :
    metaString { FieldType := "INFO".toList, Id := "x".toList, Number := "2".toList,
                 Optional := [("Extra".toList, "y".toList)],
                 FieldOrder := ["ID".toList, "Extra".toList, "Number".toList] } =
      "##INFO=<ID=x,Number=2,Extra=y>".toList ∧
    (reparseMeta (metaString { FieldType := "INFO".toList, Id := "x".toList,
                               Number := "2".toList,
                               Optional := [("Extra".toList, "y".toList)],
                               FieldOrder := ["ID".toList, "Extra".toList,
                                              "Number".toList] })).map
      (fun m2 => (m2.FieldOrder,
        MetaEqb m2 { FieldType := "INFO".toList, Id := "x".toList, Number := "2".toList,
                     Optional := [("Extra".toList, "y".toList)],
                     FieldOrder := ["ID".toList, "Extra".toList, "Number".toList] })) =
      some ([ "ID".toList, "Number".toList, "Extra".toList ], false) := by
  constructor
  · decide
  · decide

/-- C3 witness: a concrete directive in canonical key order satisfies the
validity precondition and round-trips to a `DeepEqual`-equal `Meta`. -/
theorem c3_directive_round_trip_witness :
    ValidDirective { FieldType := "INFO".toList, Id := "x".toList, Number := "2".toList,
                     Optional := [("Extra".toList, "y".toList)],
                     FieldOrder := ["ID".toList, "Number".toList, "Extra".toList] } = true ∧
    ∃ m2, reparseMeta (metaString { FieldType := "INFO".toList, Id := "x".toList,
                                    Number := "2".toList,
                                    Optional := [("Extra".toList, "y".toList)],
                                    FieldOrder := ["ID".toList, "Number".toList,
                                                   "Extra".toList] }) = some m2 ∧
      MetaEqb m2 { FieldType := "INFO".toList, Id := "x".toList, Number := "2".toList,
                   Optional := [("Extra".toList, "y".toList)],
                   FieldOrder := ["ID".toList, "Number".toList, "Extra".toList] } = true :=
  ⟨by decide, c3_directive_round_trip _ (by decide)⟩
